import Mathlib

set_option maxRecDepth 100000

/-!
Shallow embedding of the `libdata` repository (datacore log engine,
wire protocol message layer, channel map, and core replica) in Lean 4,
with theorems settling the specification claims.

Conventions used throughout:
* Machine bytes are modelled as `Nat` (the source guarantees `< 256`);
  little-endian encodings are explicit.
* `u32` / `u64` arithmetic that can overflow in the source is modelled
  with explicit bounds checks: a Rust debug-mode overflow panic is
  modelled as an error result.
* Fallible operations return `Except Unit`; mutating methods are
  modelled in state-passing style, returning the (possibly partially
  mutated) state alongside the result, mirroring `&mut self` in Rust.
* The BLAKE3 hash (an external crate in the source) is implemented
  concretely below and validated against the test vectors that the
  repository's own `hash.rs` tests pin down.
* Ed25519 signing and verification (external `ed25519_dalek` crate)
  are abstracted as parameters (`SigScheme`).
-/

namespace Libdata

/-- Byte strings (each entry is a byte value). -/
abbrev Bytes := List Nat

/-- 64-byte Ed25519 signature wire form (`ed25519_dalek::Signature`). -/
abbrev Sig64 := {l : Bytes // l.length = 64}

/-- `k`-byte little-endian encoding of `n` (truncating to `k` bytes). -/
def leBytes : Nat → Nat → Bytes
  | 0, _ => []
  | k + 1, n => n % 256 :: leBytes k (n / 256)

/-- `u64_to_bytes` / `write_u64::<LittleEndian>` in the source. -/
def u64le (n : Nat) : Bytes := leBytes 8 n

/-- `write_u32::<LittleEndian>` in the source. -/
def u32le (n : Nat) : Bytes := leBytes 4 n

/-- Little-endian value of a byte string (`read_uXX::<LittleEndian>`). -/
def fromLE : Bytes → Nat
  | [] => 0
  | b :: rest => b % 256 + 256 * fromLE rest

/-! ### BLAKE3 (external `blake3` crate, implemented concretely) -/

/-- BLAKE3 initialization vector (the SHA-256 IV words). -/
def b3IV : List Nat :=
  [0x6A09E667, 0xBB67AE85, 0x3C6EF372, 0xA54FF53A,
   0x510E527F, 0x9B05688C, 0x1F83D9AB, 0x5BE0CD19]

/-- 32-bit right rotation (input assumed `< 2^32`). -/
def rotr32 (x n : Nat) : Nat :=
  (x >>> n) ||| ((x <<< (32 - n)) % 4294967296)

/-- BLAKE3 quarter-round `g` on a 16-word state. -/
def b3g (st : List Nat) (a b c d mx my : Nat) : List Nat :=
  let sa := (st.getD a 0 + st.getD b 0 + mx) % 4294967296
  let sd := rotr32 (Nat.xor (st.getD d 0) sa) 16
  let sc := (st.getD c 0 + sd) % 4294967296
  let sb := rotr32 (Nat.xor (st.getD b 0) sc) 12
  let sa2 := (sa + sb + my) % 4294967296
  let sd2 := rotr32 (Nat.xor sd sa2) 8
  let sc2 := (sc + sd2) % 4294967296
  let sb2 := rotr32 (Nat.xor sb sc2) 7
  (((st.set a sa2).set b sb2).set c sc2).set d sd2

/-- One BLAKE3 round: four column and four diagonal quarter-rounds. -/
def b3round (st m : List Nat) : List Nat :=
  let st := b3g st 0 4 8 12 (m.getD 0 0) (m.getD 1 0)
  let st := b3g st 1 5 9 13 (m.getD 2 0) (m.getD 3 0)
  let st := b3g st 2 6 10 14 (m.getD 4 0) (m.getD 5 0)
  let st := b3g st 3 7 11 15 (m.getD 6 0) (m.getD 7 0)
  let st := b3g st 0 5 10 15 (m.getD 8 0) (m.getD 9 0)
  let st := b3g st 1 6 11 12 (m.getD 10 0) (m.getD 11 0)
  let st := b3g st 2 7 8 13 (m.getD 12 0) (m.getD 13 0)
  b3g st 3 4 9 14 (m.getD 14 0) (m.getD 15 0)

/-- The BLAKE3 message word permutation. -/
def b3permute (m : List Nat) : List Nat :=
  [2, 6, 3, 10, 7, 0, 4, 13, 1, 11, 12, 5, 9, 14, 15, 8].map
    (fun i => m.getD i 0)

/-- The BLAKE3 compression function (extended 16-word output). -/
def b3compress (cv block : List Nat) (counter blockLen flags : Nat) :
    List Nat :=
  let st0 := cv.take 8 ++ b3IV.take 4 ++
    [counter % 4294967296, counter / 4294967296 % 4294967296,
     blockLen % 4294967296, flags % 4294967296]
  let fin := (List.range 7).foldl
    (fun (p : List Nat × List Nat) _ => (b3round p.1 p.2, b3permute p.2))
    (st0, block)
  let st := fin.1
  (List.range 8).map (fun i => Nat.xor (st.getD i 0) (st.getD (i + 8) 0)) ++
  (List.range 8).map (fun i => Nat.xor (st.getD (i + 8) 0) (cv.getD i 0))

/-- Split a byte string into consecutive pieces of `k` bytes
(the final piece may be shorter); empty input gives no pieces.
Structural recursion over a fuel argument (`fuel ≥ length` suffices;
for `k ≥ 1`, `rest.drop (k-1)` is `(b :: rest).drop k`, and the source
only ever splits with `k ∈ {4, 64, 1024}`). -/
def listChunksF (k : Nat) : Nat → Bytes → List Bytes
  | _, [] => []
  | 0, _ :: _ => []
  | fuel + 1, b :: rest =>
    (b :: rest).take k :: listChunksF k fuel (rest.drop (k - 1))

def listChunks (k : Nat) (l : Bytes) : List Bytes := listChunksF k l.length l

/-- Little-endian 32-bit words of a (zero-padded) 64-byte block. -/
def b3words (block : Bytes) : List Nat :=
  (listChunks 4 (block ++ List.replicate (64 - block.length) 0)).map
    (fun g => fromLE g % 4294967296)

/-- A pending BLAKE3 output: the inputs of the final compression. -/
structure B3Output where
  cv : List Nat
  block : List Nat
  counter : Nat
  blockLen : Nat
  flags : Nat

/-- The 64-byte blocks of one chunk (at least one block, possibly empty). -/
def b3chunkBlocks (chunk : Bytes) : List Bytes :=
  if chunk = [] then [[]] else listChunks 64 chunk

/-- Process one chunk up to (but not including) its final compression.
Flag bits: CHUNK_START = 1, CHUNK_END = 2. -/
def b3chunkOutput (key : List Nat) (baseFlags counter : Nat)
    (chunk : Bytes) : B3Output :=
  let blocks := b3chunkBlocks chunk
  let init := blocks.dropLast
  let last := blocks.getLastD []
  let cv := (List.range init.length).foldl
    (fun cv i =>
      (b3compress cv (b3words (init.getD i [])) counter
        (init.getD i []).length
        (baseFlags + (if i = 0 then 1 else 0))).take 8)
    key
  { cv := cv,
    block := b3words last,
    counter := counter,
    blockLen := last.length,
    flags := baseFlags + (if init.length = 0 then 1 else 0) + 2 }

/-- Chaining value of a non-root output. -/
def b3outputCV (o : B3Output) : List Nat :=
  (b3compress o.cv o.block o.counter o.blockLen o.flags).take 8

/-- A parent node output (PARENT flag = 4). -/
def b3parentOutput (key : List Nat) (baseFlags : Nat)
    (l r : List Nat) : B3Output :=
  { cv := key, block := l ++ r, counter := 0, blockLen := 64,
    flags := baseFlags + 4 }

/-- Reduce a nonempty list of chunk chaining values to a single subtree
chaining value; the left subtree takes the largest power of two of
chunks that leaves at least one chunk on the right. -/
def b3treeCV (key : List Nat) (baseFlags : Nat) :
    List (List Nat) → List Nat
  | [] => []
  | [cv] => cv
  | cv0 :: cv1 :: rest =>
    let cvs := cv0 :: cv1 :: rest
    let p := 2 ^ Nat.log2 (cvs.length - 1)
    b3outputCV (b3parentOutput key baseFlags
      (b3treeCV key baseFlags (cvs.take p))
      (b3treeCV key baseFlags (cvs.drop p)))
  termination_by cvs => cvs.length
  decreasing_by
    all_goals simp
    all_goals
      have _h1 : 1 ≤ 2 ^ Nat.log2 (rest.length + 1) := Nat.one_le_two_pow
      have _h2 : 2 ^ Nat.log2 (rest.length + 1) ≤ rest.length + 1 := by
        have h3 : rest.length + 1 ≠ 0 := by omega
        exact Nat.log2_self_le h3
      omega

/-- The root output of the BLAKE3 tree over the whole input. -/
def b3rootOutput (key : List Nat) (baseFlags : Nat) (input : Bytes) :
    B3Output :=
  let chunks := if input = [] then [[]] else listChunks 1024 input
  match chunks with
  | [] => b3chunkOutput key baseFlags 0 []
  | [c] => b3chunkOutput key baseFlags 0 c
  | c0 :: c1 :: rest =>
    let cs := c0 :: c1 :: rest
    let cvs := (List.range cs.length).map
      (fun i => b3outputCV (b3chunkOutput key baseFlags i (cs.getD i [])))
    let p := 2 ^ Nat.log2 (cvs.length - 1)
    b3parentOutput key baseFlags
      (b3treeCV key baseFlags (cvs.take p))
      (b3treeCV key baseFlags (cvs.drop p))

/-- Finalize a root output to the default 32-byte digest (ROOT flag = 8). -/
def b3finish (o : B3Output) : Bytes :=
  ((b3compress o.cv o.block o.counter o.blockLen (o.flags + 8)).take 8).map
    u32le |>.flatten

/-- `blake3::hash`: the regular (unkeyed) 32-byte BLAKE3 digest. -/
def blake3 (input : Bytes) : Bytes :=
  b3finish (b3rootOutput b3IV 0 input)

/-- `blake3::keyed_hash` (KEYED_HASH flag = 16); the 32-byte key is
taken as eight little-endian words (zero-padded if shorter, as the
source only ever passes exactly 32 bytes). -/
def blake3keyed (key input : Bytes) : Bytes :=
  b3finish (b3rootOutput
    ((listChunks 4 (key.take 32 ++ List.replicate (32 - key.length) 0)).map
      (fun g => fromLE g % 4294967296))
    16 input)

/-! ### `datacore/src/hash.rs` -/

/-- Incremental hasher model: `blake3::Hasher` accumulates updates and
finalizes to the BLAKE3 digest of the concatenation. -/
structure Hasher where
  acc : Bytes

def hasherNew : Hasher := ⟨[]⟩

def hasherUpdate (h : Hasher) (data : Bytes) : Hasher := ⟨h.acc ++ data⟩

def hasherFinalize (h : Hasher) : Bytes := blake3 h.acc

/-- `Hash::from_leaf` (LEAF_TYPE = 0x00). -/
def hashFromLeaf (data : Bytes) : Bytes :=
  hasherFinalize
    (hasherUpdate (hasherUpdate (hasherUpdate hasherNew [0])
      (u64le data.length)) data)

/-- `Hash::from_hashes` (PARENT_TYPE = 0x01). -/
def hashFromHashes (left right : Bytes) (length : Nat) : Bytes :=
  hasherFinalize
    (hasherUpdate (hasherUpdate (hasherUpdate (hasherUpdate hasherNew [1])
      (u64le length)) left) right)

/-- `Hash::from_roots` (ROOT_TYPE = 0x02): for each zipped
`(root, length)` pair, update with `u64_le(length)` then the hash. -/
def hashFromRoots (roots : List Bytes) (lengths : List Nat) : Bytes :=
  hasherFinalize
    ((roots.zip lengths).foldl
      (fun h p => hasherUpdate (hasherUpdate h (u64le p.2)) p.1)
      (hasherUpdate hasherNew [2]))

/-- `Hash::from_bytes`: 32-byte check then identity. -/
def hashFromBytes (data : Bytes) : Except Unit Bytes :=
  if data.length = 32 then .ok data else .error ()

/-! ### `datacore/src/merkle_tree_stream/flat_tree.rs` -/

/-- `depth`: the number of trailing one bits of `i`
(`(!i).trailing_zeros()` in the source). Structural recursion over a
fuel argument; `ftDepth_eq` below recovers the natural recursion. -/
def ftDepthF : Nat → Nat → Nat
  | 0, _ => 0
  | fuel + 1, i => if i % 2 = 1 then ftDepthF fuel (i / 2) + 1 else 0

def ftDepth (i : Nat) : Nat := ftDepthF (i + 1) i

/-- `index(depth, offset) = (offset << (depth+1)) | ((1 << depth) - 1)`. -/
def ftIndex (depth offset : Nat) : Nat :=
  (offset <<< (depth + 1)) ||| ((1 <<< depth) - 1)

/-- `offset`. -/
def ftOffset (i : Nat) : Nat :=
  if i % 2 = 0 then i / 2 else i >>> (ftDepth i + 1)

/-- `parent(i) = index(depth + 1, offset(i) >> 1)`. -/
def ftParent (i : Nat) : Nat :=
  ftIndex (ftDepth i + 1) (ftOffset i >>> 1)

/-- `right_span`. -/
def ftRightSpan (i : Nat) : Nat :=
  if ftDepth i = 0 then i else (ftOffset i + 1) * (2 <<< ftDepth i) - 2

/-- `left_span`. -/
def ftLeftSpan (i : Nat) : Nat :=
  if ftDepth i = 0 then i else ftOffset i * (2 <<< ftDepth i)

/-! ### `datacore/src/merkle_tree_stream/mod.rs` -/

/-- `DefaultNode` / `merkle::Node`: flat-tree index, hash, and covered
content byte length. -/
structure MNode (Hsh : Type) where
  index : Nat
  hash : Hsh
  length : Nat
deriving DecidableEq

/-- `MerkleTreeStream` state (the handler is passed to the operations
as the `parent` hash function, mirroring the `HashMethods` generic). -/
structure MerkleTreeStream (Hsh : Type) where
  roots : List (MNode Hsh)
  blocks : Nat
deriving DecidableEq

/-- `MerkleTreeStream::new`: `blocks` is recovered from the last root
as `1 + right_span(root.index) / 2`, or `0` for no roots. -/
def mtsNew {Hsh : Type} (roots : List (MNode Hsh)) : MerkleTreeStream Hsh :=
  match roots.getLast? with
  | some root => { roots := roots, blocks := 1 + ftRightSpan root.index / 2 }
  | none => { roots := roots, blocks := 0 }

/-- The merge loop of `MerkleTreeStream::next`, acting on the REVERSED
roots list: `top` is the most recently pushed (last) root, the list
holds the earlier roots, newest first. While the last two roots share
a flat-tree parent, they are replaced by that parent node. -/
def mtsCombineGo {Hsh : Type} (parent : MNode Hsh → MNode Hsh → Hsh)
    (top : MNode Hsh) : List (MNode Hsh) → List (MNode Hsh)
  | [] => [top]
  | left :: rest =>
    if ftParent left.index = ftParent top.index then
      mtsCombineGo parent
        ⟨ftParent left.index, parent left top,
          left.length + top.length⟩ rest
    else top :: left :: rest

def mtsCombine {Hsh : Type} (parent : MNode Hsh → MNode Hsh → Hsh) :
    List (MNode Hsh) → List (MNode Hsh)
  | [] => []
  | top :: rest => mtsCombineGo parent top rest

/-- `MerkleTreeStream::next`: push `Node(2 * blocks, hash, length)`,
increment `blocks`, and run the sibling merge loop. -/
def mtsNext {Hsh : Type} (parent : MNode Hsh → MNode Hsh → Hsh)
    (st : MerkleTreeStream Hsh) (hash : Hsh) (length : Nat) :
    MerkleTreeStream Hsh :=
  let node : MNode Hsh := ⟨2 * st.blocks, hash, length⟩
  { roots := (mtsCombine parent (node :: st.roots.reverse)).reverse,
    blocks := st.blocks + 1 }

/-! ### `datacore/src/merkle.rs` -/

/-- The `H` handler's `parent`:
`Hash::from_hashes(left.hash, right.hash, left.length + right.length)`. -/
def merkleParent (left right : MNode Bytes) : Bytes :=
  hashFromHashes left.hash right.hash (left.length + right.length)

/-- `Merkle`: the stream instantiated at the concrete hash type. -/
abbrev Merkle := MerkleTreeStream Bytes

/-- `Merkle::from_roots`. -/
def merkleFromRoots (roots : List (MNode Bytes)) : Merkle := mtsNew roots

/-- `Merkle::next`. -/
def merkleNext (m : Merkle) (hash : Bytes) (length : Nat) : Merkle :=
  mtsNext merkleParent m hash length

/-- `Node::to_bytes`: `u64_le(index) ∥ u64_le(length) ∥ hash`, with the
`ensure!(data.len() == NODE_SIZE)` 48-byte check. -/
def nodeToBytes (n : MNode Bytes) : Except Unit Bytes :=
  let data := u64le n.index ++ u64le n.length ++ n.hash
  if data.length = 48 then .ok data else .error ()

/-- `Node::from_bytes`: read u64 index, u64 length, 32-byte hash. -/
def nodeFromBytes (data : Bytes) : Except Unit (MNode Bytes) :=
  if 48 ≤ data.length then
    .ok ⟨fromLE (data.take 8), (data.drop 16).take 32,
      fromLE ((data.drop 8).take 8)⟩
  else .error ()

/-- `hash_merkle` in `core.rs`: roots hash over the roots' hashes and
lengths in their native order. -/
def hashMerkle (m : Merkle) : Bytes :=
  hashFromRoots (m.roots.map MNode.hash) (m.roots.map MNode.length)

/-! ### Abstract random-access storage (`random_access_storage`) -/

/-- A storage object: the bytes written so far, by absolute offset.
Reading an offset that was never written fails. -/
def Store := Nat → Option Nat

def emptyStore : Store := fun _ => none

/-- `write(offset, data)`. -/
def writeBytes (s : Store) (off : Nat) (data : Bytes) : Store :=
  fun i => if off ≤ i ∧ i - off < data.length then data.get? (i - off) else s i

/-- `read(offset, length)`: all `length` bytes must be present. -/
def readBytes (s : Store) (off : Nat) : Nat → Option Bytes
  | 0 => some []
  | n + 1 =>
    match s off, readBytes s (off + 1) n with
    | some b, some rest => some (b :: rest)
    | _, _ => none

/-! ### `datacore/src/block.rs` -/

/-- `BlockSignature`: a data signature and a tree signature. -/
structure BlockSignature where
  data : Sig64
  tree : Sig64
deriving DecidableEq

/-- `Block`: content offset, content length, and signatures. -/
structure Block where
  offset : Nat
  length : Nat
  signature : BlockSignature
deriving DecidableEq

/-- `BLOCK_LENGTH` = 8 + 4 + 64 + 64. -/
def BLOCK_LENGTH : Nat := 140

/-- `Block::to_bytes` (`u64_le offset ∥ u32_le length ∥ sigs`). -/
def blockToBytes (b : Block) : Bytes :=
  u64le b.offset ++ u32le b.length ++ b.signature.data.val ++
    b.signature.tree.val

/-- `Block::from_bytes`: read u64, u32, then two exact 64-byte reads. -/
def blockFromBytes (data : Bytes) : Except Unit Block :=
  if h : 140 ≤ data.length then
    .ok { offset := fromLE (data.take 8),
          length := fromLE ((data.drop 8).take 4),
          signature :=
            { data := ⟨(data.drop 12).take 64, by simp; omega⟩,
              tree := ⟨(data.drop 76).take 64, by simp; omega⟩ } }
  else .error ()

/-! ### `datacore/src/store_data.rs`, `store_blocks.rs`, `store_state.rs` -/

/-- `u64::MAX`. -/
def U64MAX : Nat := 18446744073709551615

/-- `StoreData::write`: `verify_span`, length check, then write at the
block's offset. -/
def storeDataWrite (store : Store) (node : Block) (data : Bytes) :
    Except Unit Store :=
  if node.offset + node.length ≤ U64MAX then
    if data.length = node.length then
      .ok (writeBytes store node.offset data)
    else .error ()
  else .error ()

/-- `StoreData::read`. -/
def storeDataRead (store : Store) (node : Block) : Except Unit Bytes :=
  if node.offset + node.length ≤ U64MAX then
    match readBytes store node.offset node.length with
    | some data => .ok data
    | none => .error ()
  else .error ()

/-- `StoreBlocks::write`: 140-byte record at offset `index * 140`. -/
def storeBlocksWrite (store : Store) (index : Nat) (block : Block) :
    Except Unit Store :=
  let data := blockToBytes block
  if data.length = BLOCK_LENGTH then
    .ok (writeBytes store (index * BLOCK_LENGTH) data)
  else .error ()

/-- `StoreBlocks::read`. -/
def storeBlocksRead (store : Store) (index : Nat) : Except Unit Block :=
  if index * BLOCK_LENGTH + BLOCK_LENGTH ≤ U64MAX then
    match readBytes store (index * BLOCK_LENGTH) BLOCK_LENGTH with
    | some data => blockFromBytes data
    | none => .error ()
  else .error ()

/-- `StoreState::write`: `u32_le(count) ∥ count × 48-byte nodes` at 0. -/
def storeStateWrite (store : Store) (merkle : Merkle) : Except Unit Store :=
  match merkle.roots.mapM nodeToBytes with
  | .ok chunks =>
    .ok (writeBytes store 0 (u32le merkle.roots.length ++ chunks.flatten))
  | .error e => .error e

/-- `StoreState::read`: a failed header read recovers to no roots; a
successful header demands `count * 48` node bytes. -/
def storeStateRead (store : Store) : Except Unit Merkle :=
  match readBytes store 0 4 with
  | none => .ok (merkleFromRoots [])
  | some header =>
    match readBytes store 4 (fromLE header * 48) with
    | none => .error ()
    | some data =>
      match (listChunks 48 data).mapM nodeFromBytes with
      | .ok roots => .ok (merkleFromRoots roots)
      | .error e => .error e

/-! ### `datacore/src/core.rs` -/

/-- `MAX_CORE_LENGTH = u32::MAX as usize`. -/
def MAX_CORE_LENGTH : Nat := 4294967295

/-- `MAX_BLOCK_SIZE = u32::MAX as usize`. -/
def MAX_BLOCK_SIZE : Nat := 4294967295

/-- The external Ed25519 primitive (`ed25519_dalek` crate), abstracted:
`sign public secret message` and `verify public message signature`. -/
structure SigScheme where
  sign : Bytes → Bytes → Bytes → Sig64
  verify : Bytes → Bytes → Sig64 → Bool

/-- `Core`: three stores, Merkle stream, keys, cached lengths. -/
structure Core where
  data : Store
  blocks : Store
  state : Store
  merkle : Merkle
  publicKey : Bytes
  secretKey : Option Bytes
  length : Nat
  byteLength : Nat

/-- `Core::new`: recover the Merkle state, derive `length` (the
`as u32` cast) and `byte_length` from the last block record. -/
def coreNew (d b s : Store) (publicKey : Bytes) (secretKey : Option Bytes) :
    Except Unit Core :=
  match storeStateRead s with
  | .error e => .error e
  | .ok merkle =>
    match merkle.blocks % 4294967296 with
    | 0 => .ok ⟨d, b, s, merkle, publicKey, secretKey, 0, 0⟩
    | n + 1 =>
      match storeBlocksRead b n with
      | .error e => .error e
      | .ok block =>
        .ok ⟨d, b, s, merkle, publicKey, secretKey, n + 1,
          block.offset + block.length⟩

/-- A `Core` opened over three empty stores (what `Core::new` returns
for fresh storage; see `coreNew_empty`). -/
def freshCore (pk : Bytes) (sk : Option Bytes) : Core :=
  ⟨emptyStore, emptyStore, emptyStore, mtsNew [], pk, sk, 0, 0⟩

/-- The "get or try to create the signature" step of `Core::append`:
supplied signatures are verified (data signature against the leaf hash,
tree signature against the roots hash of the advanced Merkle CLONE,
which is committed only on success); otherwise the secret key signs. -/
def coreAppendVerify (S : SigScheme) (c : Core) (data : Bytes)
    (signature : Option BlockSignature) :
    Except Unit (Core × BlockSignature) :=
  match signature with
  | some s =>
    let dataHash := hashFromLeaf data
    if S.verify c.publicKey dataHash s.data then
      let merkle := merkleNext c.merkle dataHash data.length
      if S.verify c.publicKey (hashMerkle merkle) s.tree then
        .ok ({ c with merkle := merkle }, s)
      else .error ()
    else .error ()
  | none =>
    match c.secretKey with
    | none => .error ()
    | some secret =>
      let dataHash := hashFromLeaf data
      let dataSign := S.sign c.publicKey secret dataHash
      let merkle := merkleNext c.merkle dataHash data.length
      let treeSign := S.sign c.publicKey secret (hashMerkle merkle)
      .ok ({ c with merkle := merkle }, ⟨dataSign, treeSign⟩)

/-- `Core::append` in state-passing style: the returned `Core` is the
state of `self` when the call returns (also on error, mirroring
`&mut self`); u32/u64 counter overflow panics are modelled as errors. -/
def coreAppend (S : SigScheme) (c : Core) (data : Bytes)
    (signature : Option BlockSignature) : Core × Except Unit Unit :=
  let index := c.length
  let dataLength := data.length
  if dataLength ≤ MAX_BLOCK_SIZE then
    match coreAppendVerify S c data signature with
    | .error e => (c, .error e)
    | .ok (c1, sig) =>
      let block : Block := ⟨c1.byteLength, dataLength, sig⟩
      let dres := storeDataWrite c1.data block data
      let bres := storeBlocksWrite c1.blocks index block
      let c2 := { c1 with
        data := match dres with | .ok st => st | .error _ => c1.data,
        blocks := match bres with | .ok st => st | .error _ => c1.blocks }
      match dres, bres with
      | .ok _, .ok _ =>
        match storeStateWrite c2.state c2.merkle with
        | .error e => (c2, .error e)
        | .ok sstore =>
          let c3 := { c2 with state := sstore }
          if c3.byteLength + dataLength ≤ U64MAX then
            let c4 := { c3 with byteLength := c3.byteLength + dataLength }
            if c4.length + 1 ≤ 4294967295 then
              ({ c4 with length := c4.length + 1 }, .ok ())
            else (c4, .error ())
          else (c3, .error ())
      | _, _ => (c2, .error ())
  else (c, .error ())

/-- `Core::get`. -/
def coreGet (c : Core) (index : Nat) :
    Except Unit (Option (Bytes × BlockSignature)) :=
  if index < MAX_CORE_LENGTH then
    if c.length ≤ index then .ok none
    else
      match storeBlocksRead c.blocks index with
      | .error e => .error e
      | .ok block =>
        match storeDataRead c.data block with
        | .error e => .error e
        | .ok data => .ok (some (data, block.signature))
  else .error ()

/-- A sequence of `append` calls, all of which succeeded. -/
def appendSeq (S : SigScheme) (c : Core) :
    List (Bytes × Option BlockSignature) → Option Core
  | [] => some c
  | (d, s) :: rest =>
    match coreAppend S c d s with
    | (c1, .ok _) => appendSeq S c1 rest
    | (_, .error _) => none

/-! ### `protocol/src/util.rs` -/

/-- `DISCOVERY_NS_BUF`: the ASCII bytes of `"hypercore"`. -/
def DISCOVERY_NS_BUF : Bytes := [104, 121, 112, 101, 114, 99, 111, 114, 101]

/-- `discovery_key(key) = blake3::keyed_hash(key, DISCOVERY_NS_BUF)`:
the public key is the keyed-hash KEY, `"hypercore"` the hashed input. -/
def discoveryKey (key : Bytes) : Bytes := blake3keyed key DISCOVERY_NS_BUF

/-! ### `protocol/src/channels.rs` -/

structure LocalState where
  localId : Nat
  key : Bytes
deriving DecidableEq

structure RemoteState where
  remoteId : Nat
  remoteCapability : Option Bytes
deriving DecidableEq

/-- `ChannelHandle`. -/
structure ChannelHandle where
  discoveryKey : Bytes
  localState : Option LocalState
  remoteState : Option RemoteState
deriving DecidableEq

def handleNew (dk : Bytes) : ChannelHandle := ⟨dk, none, none⟩

def handleAttachLocal (h : ChannelHandle) (localId : Nat) (key : Bytes) :
    ChannelHandle :=
  { h with localState := some ⟨localId, key⟩ }

def handleAttachRemote (h : ChannelHandle) (remoteId : Nat)
    (remoteCapability : Option Bytes) : ChannelHandle :=
  { h with remoteState := some ⟨remoteId, remoteCapability⟩ }

def handleLocalId (h : ChannelHandle) : Option Nat :=
  h.localState.map LocalState.localId

def handleRemoteId (h : ChannelHandle) : Option Nat :=
  h.remoteState.map RemoteState.remoteId

def handleIsConnected (h : ChannelHandle) : Bool :=
  h.localState.isSome && h.remoteState.isSome

/-- `ChannelHandle::prepare_to_verify`. -/
def handlePrepareToVerify (h : ChannelHandle) :
    Except Unit (Bytes × Option Bytes) :=
  match h.localState, h.remoteState with
  | some ls, some rs => .ok (ls.key, rs.remoteCapability)
  | _, _ => .error ()

/-- `ChannelMap`. The `HashMap<String, ChannelHandle>` keyed by the hex
encoding of the discovery key is modelled as an association list keyed
by the discovery key bytes themselves (hex encoding is injective). -/
structure ChannelMap where
  channels : List (Bytes × ChannelHandle)
  localId : List (Option Bytes)
  remoteId : List (Option Bytes)

/-- `ChannelMap::new`: one `None` in `local_id` so ids start at 1. -/
def channelMapNew : ChannelMap := ⟨[], [none], []⟩

def chanGet (m : List (Bytes × ChannelHandle)) (k : Bytes) :
    Option ChannelHandle :=
  (m.find? (fun p => p.1 == k)).map Prod.snd

/-- `HashMap::entry(..).and_modify(..).or_insert_with(..)`. -/
def chanUpsert (m : List (Bytes × ChannelHandle)) (k : Bytes)
    (modify : ChannelHandle → ChannelHandle) (inserted : ChannelHandle) :
    List (Bytes × ChannelHandle) :=
  if (m.find? (fun p => p.1 == k)).isSome then
    m.map (fun p => if p.1 == k then (p.1, modify p.2) else p)
  else m ++ [(k, inserted)]

def chanDelete (m : List (Bytes × ChannelHandle)) (k : Bytes) :
    List (Bytes × ChannelHandle) :=
  m.filter (fun p => !(p.1 == k))

/-- `ChannelMap::alloc_local`. NOTE: this faithfully reproduces the
source, where `position` is taken on the iterator AFTER `skip(1)`, so
the returned index is one less than the index of the free slot. -/
def allocLocal (cm : ChannelMap) : ChannelMap × Nat :=
  match (cm.localId.drop 1).findIdx? Option.isNone with
  | some emptyId => (cm, emptyId)
  | none => ({ cm with localId := cm.localId ++ [none] }, cm.localId.length)

/-- `ChannelMap::alloc_remote`. -/
def allocRemote (cm : ChannelMap) (id : Nat) : ChannelMap :=
  if id < cm.remoteId.length then
    { cm with remoteId := cm.remoteId.set id none }
  else
    { cm with remoteId :=
        cm.remoteId ++ List.replicate (id + 1 - cm.remoteId.length) none }

/-- `ChannelMap::attach_local` (also returns the handle looked up at
the end, which the source `unwrap`s). -/
def cmAttachLocal (cm : ChannelMap) (key : Bytes) :
    ChannelMap × Option ChannelHandle :=
  let dk := discoveryKey key
  let p := allocLocal cm
  let cm1 := p.1
  let localId := p.2
  let channels := chanUpsert cm1.channels dk
    (fun ch => handleAttachLocal ch localId key)
    (handleAttachLocal (handleNew dk) localId key)
  ({ cm1 with
      channels := channels,
      localId := cm1.localId.set localId (some dk) },
   chanGet channels dk)

/-- `ChannelMap::attach_remote`. -/
def cmAttachRemote (cm : ChannelMap) (dk : Bytes) (remoteId : Nat)
    (remoteCapability : Option Bytes) :
    ChannelMap × Option ChannelHandle :=
  let cm1 := allocRemote cm remoteId
  let channels := chanUpsert cm1.channels dk
    (fun ch => handleAttachRemote ch remoteId remoteCapability)
    (handleAttachRemote (handleNew dk) remoteId remoteCapability)
  ({ cm1 with
      channels := channels,
      remoteId := cm1.remoteId.set remoteId (some dk) },
   chanGet channels dk)

def cmGet (cm : ChannelMap) (dk : Bytes) : Option ChannelHandle :=
  chanGet cm.channels dk

def cmGetRemote (cm : ChannelMap) (remoteId : Nat) : Option ChannelHandle :=
  match cm.remoteId.getD remoteId none with
  | some dk => cmGet cm dk
  | none => none

def cmGetLocal (cm : ChannelMap) (localId : Nat) : Option ChannelHandle :=
  match cm.localId.getD localId none with
  | some dk => cmGet cm dk
  | none => none

/-- `ChannelMap::remove`. -/
def cmRemove (cm : ChannelMap) (dk : Bytes) : ChannelMap :=
  match cmGet cm dk with
  | some channel =>
    let cm1 := match handleLocalId channel with
      | some lid => { cm with localId := cm.localId.set lid none }
      | none => cm
    let cm2 := match handleRemoteId channel with
      | some rid => { cm1 with remoteId := cm1.remoteId.set rid none }
      | none => cm1
    { cm2 with channels := chanDelete cm2.channels dk }
  | none => { cm with channels := chanDelete cm.channels dk }

/-- `ChannelMap::prepare_to_verify`. -/
def cmPrepareToVerify (cm : ChannelMap) (localId : Nat) :
    Except Unit (Bytes × Option Bytes) :=
  match cmGetLocal cm localId with
  | none => .error ()
  | some handle => handlePrepareToVerify handle

/-! ### `protocol/src/protocol/main.rs` and `handshake.rs` fragments -/

/-- The `noise::HandshakeResult` (its implementation file is not part
of the embedded sources); only its two capability methods matter here,
abstracted as functions. -/
structure HandshakeModel where
  capability : Bytes → Option Bytes
  verifyRemoteCapability : Option Bytes → Bytes → Except Unit Unit

/-- `Protocol::handshake` outcome for the main stage: with noise
disabled the protocol is established with `None` handshake state. -/
def protocolHandshakeResult (noise : Bool) (hr : HandshakeModel) :
    Option HandshakeModel :=
  if noise then some hr else none

/-- `Protocol::capability` (main stage). -/
def capabilityFn (handshake : Option HandshakeModel) (key : Bytes) :
    Option Bytes :=
  match handshake with
  | some h => h.capability key
  | none => none

/-- `Protocol::verify_remote_capability` (main stage). With no
handshake state this is the error
"Missing handshake state for capability verification". -/
def verifyRemoteCapabilityFn (handshake : Option HandshakeModel)
    (capability : Option Bytes) (key : Bytes) : Except Unit Unit :=
  match handshake with
  | some h => h.verifyRemoteCapability capability key
  | none => .error ()

/-- `protocol::main::Event` (the `Message` variant is not needed). -/
inductive ProtoEvent
  | discovered (dk : Bytes)
  | opened (dk : Bytes)
  | closed (dk : Bytes)
deriving DecidableEq

/-- Protobuf `Open` message. -/
structure OpenMessage where
  discoveryKey : Bytes
  capability : Option Bytes
deriving DecidableEq

/-- `Protocol::open`: attach a local channel, verify the remote
capability if the remote already opened (emitting `Event::Open`), and
produce the outbound `Open` message with `self.capability(&key)`. -/
def protocolOpen (handshake : Option HandshakeModel) (cm : ChannelMap)
    (key : Bytes) :
    ChannelMap × Except Unit (List ProtoEvent × OpenMessage) :=
  let p := cmAttachLocal cm key
  let cm1 := p.1
  match p.2 with
  | none => (cm1, .error ())
  | some channelHandle =>
    match handleLocalId channelHandle with
    | none => (cm1, .error ())
    | some localId =>
      let dk := channelHandle.discoveryKey
      if handleIsConnected channelHandle then
        match cmPrepareToVerify cm1 localId with
        | .error e => (cm1, .error e)
        | .ok v =>
          match verifyRemoteCapabilityFn handshake v.2 v.1 with
          | .error e => (cm1, .error e)
          | .ok _ =>
            (cm1, .ok ([.opened dk], ⟨dk, capabilityFn handshake key⟩))
      else
        (cm1, .ok ([], ⟨dk, capabilityFn handshake key⟩))

/-- `Protocol::on_open` (inbound remote `Open`). -/
def protocolOnOpen (handshake : Option HandshakeModel) (cm : ChannelMap)
    (ch : Nat) (msg : OpenMessage) :
    ChannelMap × Except Unit (List ProtoEvent) :=
  if msg.discoveryKey.length = 32 then
    let p := cmAttachRemote cm msg.discoveryKey ch msg.capability
    let cm1 := p.1
    match p.2 with
    | none => (cm1, .error ())
    | some channelHandle =>
      if handleIsConnected channelHandle then
        match handleLocalId channelHandle with
        | none => (cm1, .error ())
        | some localId =>
          match cmPrepareToVerify cm1 localId with
          | .error e => (cm1, .error e)
          | .ok v =>
            match verifyRemoteCapabilityFn handshake v.2 v.1 with
            | .error e => (cm1, .error e)
            | .ok _ => (cm1, .ok [.opened msg.discoveryKey])
      else (cm1, .ok [.discovered msg.discoveryKey])
  else (cm, .error ())

/-! ### `protocol/src/message.rs` and the wire schema -/

/-- `varinteger::encode` (LEB128, little-endian 7-bit groups).
Structural recursion over a fuel argument; `varintEncode_eq` below
recovers the natural recursion. -/
def varintEncodeF : Nat → Nat → Bytes
  | 0, n => [n % 128]
  | fuel + 1, n =>
    if n < 128 then [n] else (n % 128 + 128) :: varintEncodeF fuel (n / 128)

def varintEncode (n : Nat) : Bytes := varintEncodeF n n

/-- `varinteger::decode`: value and number of bytes consumed. -/
def varintDecode : Bytes → Option (Nat × Nat)
  | [] => none
  | b :: rest =>
    if b < 128 then some (b, 1)
    else
      match varintDecode rest with
      | some (v, k) => some (b % 128 + 128 * v, k + 1)
      | none => none

/-- Protobuf `Close` message. -/
structure CloseMessage where
  discoveryKey : Bytes
deriving DecidableEq

/-- Protobuf `Request` message. -/
structure RequestMessage where
  index : Nat
deriving DecidableEq

/-- Protobuf `Data` message. -/
structure DataMessage where
  index : Nat
  data : Bytes
  dataSignature : Bytes
  treeSignature : Bytes
deriving DecidableEq

/-- `Message`: wire types Open = 0, Close = 1, Request = 2, Data = 3. -/
inductive Message
  | openM (m : OpenMessage)
  | closeM (m : CloseMessage)
  | requestM (m : RequestMessage)
  | dataM (m : DataMessage)
deriving DecidableEq

/-- `Message::typ`. -/
def messageTyp : Message → Nat
  | .openM _ => 0
  | .closeM _ => 1
  | .requestM _ => 2
  | .dataM _ => 3

/-- A primitive Protobuf field: varint or length-delimited payload. -/
inductive PbField
  | varint (fieldNo : Nat) (value : Nat)
  | lenDelim (fieldNo : Nat) (value : Bytes)
deriving DecidableEq

/-- Wire encoding of one Protobuf field (tag = fieldNo << 3 | wire). -/
def pbEncodeField : PbField → Bytes
  | .varint f v => varintEncode (f * 8) ++ varintEncode v
  | .lenDelim f v => varintEncode (f * 8 + 2) ++ varintEncode v.length ++ v

/-- Modelled from the spec: the Protobuf schema of §4.6 (the generated
`hypercore.schema.rs` / `.proto` file is not among the sources). Fields
are numbered in the order the spec lists them; proto3 scalar fields are
omitted at their default value, `optional` fields track presence. -/
def msgFields : Message → List PbField
  | .openM m =>
    (if m.discoveryKey = [] then [] else [.lenDelim 1 m.discoveryKey]) ++
    (match m.capability with
     | none => []
     | some c => [.lenDelim 2 c])
  | .closeM m =>
    if m.discoveryKey = [] then [] else [.lenDelim 1 m.discoveryKey]
  | .requestM m =>
    if m.index = 0 then [] else [.varint 1 m.index]
  | .dataM m =>
    (if m.index = 0 then [] else [.varint 1 m.index]) ++
    (if m.data = [] then [] else [.lenDelim 2 m.data]) ++
    (if m.dataSignature = [] then [] else [.lenDelim 3 m.dataSignature]) ++
    (if m.treeSignature = [] then [] else [.lenDelim 4 m.treeSignature])

/-- Protobuf body encoding of a message. -/
def messageEncodeBody (msg : Message) : Bytes :=
  ((msgFields msg).map pbEncodeField).flatten

/-- Parse a Protobuf body into primitive fields (fuel = input length). -/
def pbParseFieldsFuel : Nat → Bytes → Option (List PbField)
  | 0, buf => if buf = [] then some [] else none
  | fuel + 1, buf =>
    if buf = [] then some [] else
    match varintDecode buf with
    | none => none
    | some (tag, k) =>
      let rest := buf.drop k
      let fieldNo := tag / 8
      match tag % 8 with
      | 0 =>
        match varintDecode rest with
        | none => none
        | some (v, k2) =>
          match pbParseFieldsFuel fuel (rest.drop k2) with
          | some fs => some (.varint fieldNo v :: fs)
          | none => none
      | 2 =>
        match varintDecode rest with
        | none => none
        | some (len, k2) =>
          if len ≤ (rest.drop k2).length then
            match pbParseFieldsFuel fuel ((rest.drop k2).drop len) with
            | some fs =>
              some (.lenDelim fieldNo ((rest.drop k2).take len) :: fs)
            | none => none
          else none
      | _ => none

def pbParseFields (buf : Bytes) : Option (List PbField) :=
  pbParseFieldsFuel buf.length buf

/-- Merge one parsed field into an `Open` message (later wins). -/
def applyOpenField (m : OpenMessage) : PbField → OpenMessage
  | .lenDelim 1 v => { m with discoveryKey := v }
  | .lenDelim 2 v => { m with capability := some v }
  | _ => m

def applyCloseField (m : CloseMessage) : PbField → CloseMessage
  | .lenDelim 1 v => { m with discoveryKey := v }
  | _ => m

def applyRequestField (m : RequestMessage) : PbField → RequestMessage
  | .varint 1 v => { m with index := v }
  | _ => m

def applyDataField (m : DataMessage) : PbField → DataMessage
  | .varint 1 v => { m with index := v }
  | .lenDelim 2 v => { m with data := v }
  | .lenDelim 3 v => { m with dataSignature := v }
  | .lenDelim 4 v => { m with treeSignature := v }
  | _ => m

/-- `Message::decode(buf, typ)`. -/
def messageDecodeBody (typ : Nat) (buf : Bytes) : Option Message :=
  match pbParseFields buf with
  | none => none
  | some fields =>
    match typ with
    | 0 => some (.openM (fields.foldl applyOpenField ⟨[], none⟩))
    | 1 => some (.closeM (fields.foldl applyCloseField ⟨[]⟩))
    | 2 => some (.requestM (fields.foldl applyRequestField ⟨0⟩))
    | 3 => some (.dataM (fields.foldl applyDataField ⟨0, [], [], []⟩))
    | _ => none

/-- `ChannelMessage`. -/
structure ChannelMessage where
  channel : Nat
  message : Message
deriving DecidableEq

/-- `ChannelMessage::header` = `self.channel << 4 | typ` in `u64`
arithmetic (the shift silently discards high bits). -/
def channelMessageHeader (cm : ChannelMessage) : Nat :=
  ((cm.channel <<< 4) % 18446744073709551616) ||| messageTyp cm.message

/-- `ChannelMessage::encode`: varint header then Protobuf body; fails
when the total exceeds `MAX_MESSAGE_SIZE` (4 MiB). -/
def channelMessageEncode (cm : ChannelMessage) : Except Unit Bytes :=
  let headerBytes := varintEncode (channelMessageHeader cm)
  let body := messageEncodeBody cm.message
  if headerBytes.length + body.length ≤ 4194304 then
    .ok (headerBytes ++ body)
  else .error ()

/-- `ChannelMessage::decode`: reject empty, parse varint header,
`channel = header >> 4`, `typ = header & 0b1111`, decode body. -/
def channelMessageDecode (buf : Bytes) : Option ChannelMessage :=
  if buf = [] then none
  else
    match varintDecode buf with
    | none => none
    | some (header, headerlen) =>
      match messageDecodeBody (header % 16) (buf.drop headerlen) with
      | none => none
      | some msg => some ⟨header >>> 4, msg⟩

/-! ### `libdata/src/replication/core_replica.rs` -/

/-- `ed25519_dalek::Signature::from_bytes`: exactly 64 bytes. -/
def sigFromBytes (b : Bytes) : Option Sig64 :=
  if h : b.length = 64 then some ⟨b, h⟩ else none

/-- `CoreReplica::on_data` (the shared `Arc<Mutex<Core>>` is modelled
by passing the core state in and out; the `.unwrap()` panics on
malformed signature bytes are modelled as errors). -/
def replicaOnData (S : SigScheme) (core : Core) (d : DataMessage) :
    Core × Except Unit (Option RequestMessage) :=
  let len := core.length
  if d.index = len then
    match sigFromBytes d.dataSignature, sigFromBytes d.treeSignature with
    | some ds, some ts =>
      match coreAppend S core d.data (some ⟨ds, ts⟩) with
      | (core1, .ok _) =>
        if MAX_CORE_LENGTH ≤ core1.length then (core1, .ok none)
        else (core1, .ok (some ⟨d.index + 1⟩))
      | (core1, .error e) => (core1, .error e)
    | _, _ => (core, .error ())
  else (core, .ok (some ⟨len⟩))

/-! ### Specification-side definitions -/

/-- Population count (number of one bits). Structural recursion over a
fuel argument; `popcount_eq` below recovers the natural recursion. -/
def popcountF : Nat → Nat → Nat
  | 0, _ => 0
  | fuel + 1, n => if n = 0 then 0 else n % 2 + popcountF fuel (n / 2)

def popcount (n : Nat) : Nat := popcountF (n + 1) n

/-- Sum of powers of two over an exponent list. -/
def pow2sum (es : List Nat) : Nat := (es.map (2 ^ ·)).sum

/-- Binary-counter carry: insert exponent `c` into an increasing
exponent list, merging equal exponents upward. -/
def carry (c : Nat) : List Nat → List Nat
  | [] => [c]
  | e :: rest => if e = c then carry (c + 1) rest else c :: e :: rest

/-- Expected root indices, NEWEST FIRST, for an increasing exponent
list `es` covering `n` leaves: a root of `2^e` leaves ending at leaf
`n` sits at flat-tree index `2*(n - 2^e) + 2^e - 1`. -/
def revSpec : List Nat → Nat → List Nat
  | [], _ => []
  | e :: rest, n => (2 * (n - 2 ^ e) + 2 ^ e - 1) :: revSpec rest (n - 2 ^ e)

/-- Run a fresh Merkle stream over a list of `(leaf hash, length)`. -/
def mtsRun {Hsh : Type} (parent : MNode Hsh → MNode Hsh → Hsh)
    (inputs : List (Hsh × Nat)) : MerkleTreeStream Hsh :=
  inputs.foldl (fun st p => mtsNext parent st p.1 p.2) (mtsNew [])

/-- Byte offset of the `i`-th content in the content store: the sum of
the lengths of the preceding contents. -/
def contentOffset (contents : List Bytes) (i : Nat) : Nat :=
  ((contents.take i).map List.length).sum

/-- Total byte length of a content sequence. -/
def contentTotal (contents : List Bytes) : Nat :=
  (contents.map List.length).sum

/-- The storage invariant of a `Core` that has appended exactly
`contents`: correct cached lengths, and for every index a 140-byte
block record (for some signature) plus the content bytes at the
record's span. -/
def CoreTracks (contents : List Bytes) (c : Core) : Prop :=
  c.length = contents.length ∧
  c.length ≤ 4294967295 ∧
  c.byteLength = contentTotal contents ∧
  c.byteLength ≤ U64MAX ∧
  ∀ i, i < contents.length →
    (contents.getD i []).length ≤ MAX_BLOCK_SIZE ∧
    ∃ sig : BlockSignature,
      readBytes c.blocks (i * BLOCK_LENGTH) BLOCK_LENGTH =
        some (blockToBytes
          ⟨contentOffset contents i, (contents.getD i []).length, sig⟩) ∧
      readBytes c.data (contentOffset contents i)
        (contents.getD i []).length = some (contents.getD i [])

/-- The spec sentence's reading of the discovery key: keyed BLAKE3 OF
the public key UNDER the key `"hypercore"` (zero-padded to 32 bytes,
the only way to use a 9-byte string as a BLAKE3 key). -/
def specDiscoveryKey (key : Bytes) : Bytes :=
  blake3keyed DISCOVERY_NS_BUF key

/-! ### Concrete instances used by witnesses -/

def zeroSig : Sig64 := ⟨List.replicate 64 0, by simp⟩

/-- A signature scheme whose verification always succeeds. -/
def acceptAll : SigScheme := ⟨fun _ _ _ => zeroSig, fun _ _ _ => true⟩

/-- A signature scheme whose verification always fails. -/
def rejectAll : SigScheme := ⟨fun _ _ _ => zeroSig, fun _ _ _ => false⟩

/-- A trivial handshake model (only used to instantiate binders). -/
def trivHandshake : HandshakeModel := ⟨fun _ => none, fun _ _ => .ok ()⟩

/-- A 32-byte key used by concrete witnesses. -/
def wKey : Bytes := List.replicate 32 3

/-- A channel map in which the remote has already opened `wKey`'s
channel (so a local open will find the channel connected). -/
def wCm0 : ChannelMap :=
  (cmAttachRemote channelMapNew (discoveryKey wKey) 0 none).1

/-- The connected handle produced by a local open on `wCm0`. -/
def wHnd : ChannelHandle :=
  ((cmAttachLocal wCm0 wKey).2).getD (handleNew [])

/-- A concrete in-order `Data` message for the replica witness. -/
def wData : DataMessage :=
  ⟨0, [7], List.replicate 64 0, List.replicate 64 0⟩

/-- A concrete out-of-order `Data` message for the replica witness. -/
def wDataWrong : DataMessage :=
  ⟨5, [9], List.replicate 64 0, List.replicate 64 0⟩

/-- The core state after appending `wData` to a fresh core. -/
def wCore1 : Core :=
  (coreAppend acceptAll (freshCore [] none) wData.data
    (some ⟨zeroSig, zeroSig⟩)).1

/-- A concrete two-append input sequence for the C1 witness. -/
def wC1inputs : List (Bytes × Option BlockSignature) :=
  [([1, 2], none), ([3], none)]

/-- The core produced by the two witness appends. -/
def wC1core : Core :=
  (appendSeq acceptAll (freshCore [] (some [])) wC1inputs).getD
    (freshCore [] none)

/-! ## Supporting lemmas -/

theorem leBytes_length (k : Nat) : ∀ n, (leBytes k n).length = k := by
  induction k with
  | zero => intro n; rfl
  | succ k ih => intro n; simp [leBytes, ih]

theorem fromLE_leBytes (k : Nat) : ∀ n, fromLE (leBytes k n) = n % 256 ^ k := by
  induction k with
  | zero => intro n; simp [leBytes, fromLE, Nat.mod_one]
  | succ k ih =>
    intro n
    have h : (256 : Nat) ^ (k + 1) = 256 * 256 ^ k := by ring
    rw [h, Nat.mod_mul]
    simp [leBytes, fromLE, ih, Nat.mod_mod_of_dvd]

theorem fromLE_u64le {n : Nat} (h : n < 2 ^ 64) : fromLE (u64le n) = n := by
  have h8 : (256 : Nat) ^ 8 = 2 ^ 64 := by norm_num
  rw [u64le, fromLE_leBytes, h8, Nat.mod_eq_of_lt h]

theorem fromLE_u32le {n : Nat} (h : n < 2 ^ 32) : fromLE (u32le n) = n := by
  have h4 : (256 : Nat) ^ 4 = 2 ^ 32 := by norm_num
  rw [u32le, fromLE_leBytes, h4, Nat.mod_eq_of_lt h]

theorem writeBytes_outside {s : Store} {off : Nat} {data : Bytes} {i : Nat}
    (h : i < off ∨ off + data.length ≤ i) :
    writeBytes s off data i = s i := by
  unfold writeBytes
  rw [if_neg]
  omega

theorem writeBytes_inside {s : Store} {off : Nat} {data : Bytes} {j : Nat}
    (h : j < data.length) :
    writeBytes s off data (off + j) = data.get? j := by
  unfold writeBytes
  rw [if_pos (by omega)]
  congr 1
  omega

theorem readBytes_congr {s1 s2 : Store} :
    ∀ (len off : Nat), (∀ j, j < len → s1 (off + j) = s2 (off + j)) →
    readBytes s1 off len = readBytes s2 off len := by
  intro len
  induction len with
  | zero => intro off _; rfl
  | succ n ih =>
    intro off h
    have h0 := h 0 (by omega)
    simp only [Nat.add_zero] at h0
    have hr : readBytes s1 (off + 1) n = readBytes s2 (off + 1) n := by
      apply ih
      intro j hj
      have h2 := h (j + 1) (by omega)
      have e : off + (j + 1) = off + 1 + j := by omega
      rw [e] at h2
      exact h2
    simp only [readBytes]
    rw [h0, hr]

theorem readBytes_points {s : Store} :
    ∀ (l : Bytes) (off : Nat), (∀ j, j < l.length → s (off + j) = l.get? j) →
    readBytes s off l.length = some l := by
  intro l
  induction l with
  | nil => intro off _; rfl
  | cons b rest ih =>
    intro off h
    have h0 := h 0 (by simp)
    simp only [Nat.add_zero, List.get?] at h0
    have hr : readBytes s (off + 1) rest.length = some rest := by
      apply ih
      intro j hj
      have h2 := h (j + 1) (by simp; omega)
      have e : off + (j + 1) = off + 1 + j := by omega
      rw [e] at h2
      simpa using h2
    show readBytes s off (rest.length + 1) = some (b :: rest)
    simp only [readBytes]
    rw [h0, hr]

theorem readBytes_writeBytes_self (s : Store) (off : Nat) (data : Bytes) :
    readBytes (writeBytes s off data) off data.length = some data := by
  apply readBytes_points
  intro j hj
  exact writeBytes_inside hj

theorem readBytes_writeBytes_disjoint {s : Store} {off len off2 : Nat}
    {data : Bytes} (h : off + len ≤ off2 ∨ off2 + data.length ≤ off) :
    readBytes (writeBytes s off2 data) off len = readBytes s off len := by
  apply readBytes_congr
  intro j hj
  apply writeBytes_outside
  omega

theorem blockToBytes_length (b : Block) : (blockToBytes b).length = 140 := by
  simp [blockToBytes, List.length_append, u64le, u32le, leBytes_length,
    b.signature.data.2, b.signature.tree.2]

theorem blockFromBytes_blockToBytes (b : Block) (ho : b.offset < 2 ^ 64)
    (hl : b.length < 2 ^ 32) : blockFromBytes (blockToBytes b) = .ok b := by
  obtain ⟨off, len, ⟨sd, hsd⟩, ⟨st, hst⟩⟩ := b
  simp only at ho hl
  have hlen := blockToBytes_length ⟨off, len, ⟨sd, hsd⟩, ⟨st, hst⟩⟩
  unfold blockFromBytes
  rw [dif_pos (by omega)]
  have e0 : blockToBytes ⟨off, len, ⟨sd, hsd⟩, ⟨st, hst⟩⟩ =
      u64le off ++ (u32le len ++ (sd ++ st)) := by
    simp [blockToBytes]
  have h8 : (u64le off).length = 8 := leBytes_length 8 off
  have h4 : (u32le len).length = 4 := leBytes_length 4 len
  have e1 : (blockToBytes ⟨off, len, ⟨sd, hsd⟩, ⟨st, hst⟩⟩).take 8 =
      u64le off := by
    rw [e0]; exact List.take_left' h8
  have e2 : (blockToBytes ⟨off, len, ⟨sd, hsd⟩, ⟨st, hst⟩⟩).drop 8 =
      u32le len ++ (sd ++ st) := by
    rw [e0]; exact List.drop_left' h8
  have e3 : (blockToBytes ⟨off, len, ⟨sd, hsd⟩, ⟨st, hst⟩⟩).drop 12 =
      sd ++ st := by
    have h12 : (12 : Nat) = 8 + 4 := by omega
    rw [h12, ← List.drop_drop, e2]
    exact List.drop_left' h4
  have e4 : (blockToBytes ⟨off, len, ⟨sd, hsd⟩, ⟨st, hst⟩⟩).drop 76 = st := by
    have h76 : (76 : Nat) = 12 + 64 := by omega
    rw [h76, ← List.drop_drop, e3]
    exact List.drop_left' hsd
  simp only [Except.ok.injEq, Block.mk.injEq, BlockSignature.mk.injEq,
    Subtype.mk.injEq]
  refine ⟨?_, ?_, ?_, ?_⟩
  · rw [e1, fromLE_u64le ho]
  · rw [e2, List.take_left' h4, fromLE_u32le hl]
  · rw [e3, List.take_left' hsd]
  · rw [e4, show (64 : Nat) = st.length from hst.symm, List.take_length]

/-! ## Claim C4: domain-tagged hash constructors -/

theorem hasher_foldl_acc (ps : List (Bytes × Nat)) :
    ∀ acc : Bytes,
    (ps.foldl (fun h p => hasherUpdate (hasherUpdate h (u64le p.2)) p.1)
      ⟨acc⟩).acc =
    acc ++ (ps.map (fun p => u64le p.2 ++ p.1)).flatten := by
  induction ps with
  | nil => intro acc; simp
  | cons p ps ih =>
    intro acc
    rw [List.foldl_cons]
    have h1 : hasherUpdate (hasherUpdate ⟨acc⟩ (u64le p.2)) p.1 =
        Hasher.mk (acc ++ u64le p.2 ++ p.1) := rfl
    rw [h1, ih]
    simp [List.append_assoc]

/-- C4: the three hash constructors compute domain-tagged BLAKE3
digests exactly as specified: `leaf(d) = H(0x00 ∥ u64_le(len d) ∥ d)`,
`parent(l, r, len) = H(0x01 ∥ u64_le(len) ∥ l ∥ r)`, and the roots hash
is `H(0x02 ∥ for each (hash, len) root pair in native list order:
u64_le(len) ∥ hash)`. -/
theorem claim_C4_hash_constructors :
    (∀ data : Bytes,
      hashFromLeaf data = blake3 ([0x00] ++ u64le data.length ++ data)) ∧
    (∀ (left right : Bytes) (length : Nat),
      hashFromHashes left right length =
        blake3 ([0x01] ++ u64le length ++ left ++ right)) ∧
    (∀ (roots : List Bytes) (lengths : List Nat),
      hashFromRoots roots lengths =
        blake3 ([0x02] ++
          ((roots.zip lengths).map (fun p => u64le p.2 ++ p.1)).flatten)) := by
  refine ⟨?_, ?_, ?_⟩
  · intro data
    simp [hashFromLeaf, hasherNew, hasherUpdate, hasherFinalize]
  · intro left right length
    simp [hashFromHashes, hasherNew, hasherUpdate, hasherFinalize]
  · intro roots lengths
    unfold hashFromRoots hasherFinalize
    have h2 : hasherUpdate hasherNew [2] = Hasher.mk [2] := rfl
    rw [h2, hasher_foldl_acc]

/-! ## Claim C8: discovery key derivation -/

/-- C8 counterexample: at the 32-byte public key `wKey`, the code's
discovery key (keyed hash OF `"hypercore"` UNDER the public key) is
not the spec's claimed value (keyed hash OF the public key UNDER the
key `"hypercore"`): the key and input roles are swapped. -/
theorem claim_C8_counterexample : discoveryKey wKey ≠ specDiscoveryKey wKey := by
  decide

/-- C8 (amended): the discovery key is the BLAKE3 keyed hash whose
KEY is the 32-byte public key and whose hashed INPUT is the constant
ASCII `"hypercore"`; it is a deterministic function of the key. -/
theorem claim_C8_discovery_key :
    ∀ key : Bytes, discoveryKey key =
      blake3keyed key [104, 121, 112, 101, 114, 99, 111, 114, 101] := by
  intro key
  rfl

/-! ## Claim C5: get beyond the length -/

/-- C5 counterexample: `get` at index `u32::MAX` (which is
`≥ core.len()`) returns an error rather than absent, because of the
`ensure!((index as usize) < MAX_CORE_LENGTH)` guard. -/
theorem claim_C5_counterexample :
    (freshCore [] none).length ≤ 4294967295 ∧
    coreGet (freshCore [] none) 4294967295 = .error () := by
  constructor
  · decide
  · rfl

/-- C5 (amended): for every index with
`core.len() ≤ index < u32::MAX`, `get` returns absent (`None`) without
error (and without reading storage: the result does not depend on the
stores). -/
theorem claim_C5_get_absent (c : Core) (index : Nat)
    (h1 : c.length ≤ index) (h2 : index < MAX_CORE_LENGTH) :
    coreGet c index = .ok none := by
  unfold coreGet
  rw [if_pos h2, if_pos h1]

theorem claim_C5_witness :
    (freshCore [] none).length ≤ 5 ∧ 5 < MAX_CORE_LENGTH ∧
    coreGet (freshCore [] none) 5 = .ok none :=
  ⟨by decide, by decide,
   claim_C5_get_absent (freshCore [] none) 5 (by decide) (by decide)⟩

/-! ## Claim C2: failed signature verification leaves the Core unchanged -/

/-- C2: for every `append(content, Some(signature))` call in which the
data signature fails to verify against the leaf hash of the content, or
the tree signature fails to verify against the roots hash of the
advanced Merkle clone, the call returns an error and the `Core` (its
Merkle state, all three stores, `length` and `byte_length`) is exactly
the state before the call. -/
theorem claim_C2_failed_verify_unchanged (S : SigScheme) (c : Core)
    (data : Bytes) (sig : BlockSignature)
    (h : S.verify c.publicKey (hashFromLeaf data) sig.data = false ∨
      S.verify c.publicKey
        (hashMerkle (merkleNext c.merkle (hashFromLeaf data) data.length))
        sig.tree = false) :
    coreAppend S c data (some sig) = (c, .error ()) := by
  by_cases hsize : data.length ≤ MAX_BLOCK_SIZE
  · cases hv1 : S.verify c.publicKey (hashFromLeaf data) sig.data with
    | false => simp [coreAppend, coreAppendVerify, hsize, hv1]
    | true =>
      have hv2 : S.verify c.publicKey
          (hashMerkle (merkleNext c.merkle (hashFromLeaf data) data.length))
          sig.tree = false := by
        rcases h with h | h
        · rw [hv1] at h; exact absurd h (by simp)
        · exact h
      simp [coreAppend, coreAppendVerify, hsize, hv1, hv2]
  · simp [coreAppend, hsize]

theorem claim_C2_witness :
    (rejectAll.verify (freshCore [] none).publicKey (hashFromLeaf [1])
      (BlockSignature.mk zeroSig zeroSig).data = false ∨
     rejectAll.verify (freshCore [] none).publicKey
       (hashMerkle (merkleNext (freshCore [] none).merkle
         (hashFromLeaf [1]) [1].length))
       (BlockSignature.mk zeroSig zeroSig).tree = false) ∧
    coreAppend rejectAll (freshCore [] none) [1]
      (some (BlockSignature.mk zeroSig zeroSig)) =
      (freshCore [] none, .error ()) :=
  ⟨Or.inl rfl,
   claim_C2_failed_verify_unchanged rejectAll (freshCore [] none) [1]
     (BlockSignature.mk zeroSig zeroSig) (Or.inl rfl)⟩

/-! ## Claim C6: noise-disabled capability handling -/

/-- C6 (code bug): with noise disabled the protocol is established
with no handshake state; then (a) `capability` attaches no capability
tag to outgoing `Open` messages, but (b) `verify_remote_capability`
ALWAYS returns the error "Missing handshake state for capability
verification", so (c) `Protocol::open` fails whenever the channel is
already connected (the remote opened it first) instead of skipping
verification; establishment of a channel which both sides open can
therefore never succeed, contrary to the claim and to the option's own
documentation ("Disabling the handshake will also disable capability
verification"). -/
theorem claim_C6_noise_disabled (hr : HandshakeModel) (key : Bytes)
    (capability : Option Bytes) (cm : ChannelMap) (hnd : ChannelHandle)
    (hatt : (cmAttachLocal cm key).2 = some hnd)
    (hconn : handleIsConnected hnd = true) :
    capabilityFn (protocolHandshakeResult false hr) key = none ∧
    verifyRemoteCapabilityFn (protocolHandshakeResult false hr)
      capability key = .error () ∧
    (protocolOpen (protocolHandshakeResult false hr) cm key).2 =
      .error () := by
  refine ⟨rfl, rfl, ?_⟩
  unfold protocolOpen
  simp only [hatt]
  cases hlid : handleLocalId hnd with
  | none => simp
  | some localId =>
    simp only [hconn, if_pos]
    cases hp : cmPrepareToVerify (cmAttachLocal cm key).1 localId with
    | error e => simp
    | ok v => simp [verifyRemoteCapabilityFn, protocolHandshakeResult]

theorem claim_C6_witness :
    capabilityFn (protocolHandshakeResult false trivHandshake) wKey = none ∧
    verifyRemoteCapabilityFn (protocolHandshakeResult false trivHandshake)
      none wKey = .error () ∧
    (protocolOpen (protocolHandshakeResult false trivHandshake) wCm0
      wKey).2 = .error () :=
  claim_C6_noise_disabled trivHandshake wKey none wCm0 wHnd
    (by decide) (by decide)

/-! ## Claim C7: local channel id allocation -/

/-- C7 (code bug): the first `attach_local` on a fresh `ChannelMap`
does allocate local id `1`, but after `remove` frees that slot, the
next `attach_local` allocates local id `0` — the id reserved for
stream-level frames — because `alloc_local` takes `position` on the
iterator after `skip(1)` and forgets to add the skipped offset back. -/
theorem claim_C7_alloc_local_bug :
    ((cmAttachLocal channelMapNew wKey).2).map handleLocalId =
      some (some 1) ∧
    ((cmAttachLocal
        (cmRemove (cmAttachLocal channelMapNew wKey).1 (discoveryKey wKey))
        wKey).2).map handleLocalId = some (some 0) := by
  constructor
  · decide
  · decide

/-! ## Claim C9: CoreReplica::on_data -/

/-- C9: for every `Data` message with well-formed 64-byte signatures:
if `data.index` equals the core length, `on_data` appends the content
with the reconstructed `BlockSignature` and, on success, responds
`Request{index + 1}` unless the core has reached the maximum length
(then nothing); if `data.index` differs from the core length, it
responds `Request{index: core.length}` without appending. -/
theorem claim_C9_on_data (S : SigScheme) (core : Core) (d : DataMessage)
    (h64d : d.dataSignature.length = 64)
    (h64t : d.treeSignature.length = 64) :
    (d.index = core.length →
      ∀ core1 : Core,
        coreAppend S core d.data
          (some ⟨⟨d.dataSignature, h64d⟩, ⟨d.treeSignature, h64t⟩⟩) =
          (core1, .ok ()) →
        replicaOnData S core d =
          (core1, .ok (if MAX_CORE_LENGTH ≤ core1.length then none
            else some ⟨d.index + 1⟩))) ∧
    (d.index ≠ core.length →
      replicaOnData S core d = (core, .ok (some ⟨core.length⟩))) := by
  constructor
  · intro heq core1 happ
    unfold replicaOnData
    rw [if_pos heq]
    have hsd : sigFromBytes d.dataSignature = some ⟨d.dataSignature, h64d⟩ := by
      unfold sigFromBytes
      rw [dif_pos h64d]
    have hst : sigFromBytes d.treeSignature = some ⟨d.treeSignature, h64t⟩ := by
      unfold sigFromBytes
      rw [dif_pos h64t]
    rw [hsd, hst]
    simp only [happ]
    by_cases hmax : MAX_CORE_LENGTH ≤ core1.length
    · rw [if_pos hmax, if_pos hmax]
    · rw [if_neg hmax, if_neg hmax]
  · intro hne
    unfold replicaOnData
    rw [if_neg hne]

set_option maxHeartbeats 4000000 in
theorem claim_C9_witness :
    (replicaOnData acceptAll (freshCore [] none) wData =
      (wCore1, .ok (if MAX_CORE_LENGTH ≤ wCore1.length then none
        else some ⟨wData.index + 1⟩))) ∧
    (replicaOnData acceptAll wCore1 wDataWrong =
      (wCore1, .ok (some ⟨wCore1.length⟩))) :=
  ⟨(claim_C9_on_data acceptAll (freshCore [] none) wData (by decide)
      (by decide)).1 rfl wCore1 rfl,
   (claim_C9_on_data acceptAll wCore1 wDataWrong (by decide) (by decide)).2
      (by decide)⟩

/-! ## Claim C10: channel message encode/decode -/

theorem lor_two_pow_mul_add {k a b : Nat} (hb : b < 2 ^ k) :
    2 ^ k * a ||| b = 2 ^ k * a + b := by
  apply Nat.eq_of_testBit_eq
  intro i
  rw [Nat.testBit_lor]
  rcases Nat.lt_or_ge i k with hik | hik
  · have e2 : 2 ^ k * a / 2 ^ i = 2 * (2 ^ (k - i - 1) * a) := by
      have e : 2 ^ k * a = 2 ^ i * (2 * (2 ^ (k - i - 1) * a)) := by
        have e4 : (2 : Nat) ^ i * (2 * (2 ^ (k - i - 1) * a)) =
            2 ^ i * 2 ^ 1 * 2 ^ (k - i - 1) * a := by ring
        rw [e4, ← Nat.pow_add, ← Nat.pow_add]
        congr 2
        omega
      rw [e, Nat.mul_div_cancel_left _ (Nat.pos_pow_of_pos i (by omega))]
    have e1 : (2 ^ k * a + b) / 2 ^ i = 2 ^ k * a / 2 ^ i + b / 2 ^ i :=
      Nat.add_div_of_dvd_right
        (Dvd.dvd.mul_right (pow_dvd_pow 2 (by omega)) a)
    rw [Nat.testBit_to_div_mod, Nat.testBit_to_div_mod,
      Nat.testBit_to_div_mod, e1, e2]
    by_cases hbit : b / 2 ^ i % 2 = 1
    · simp [hbit]
      omega
    · simp [hbit]
      omega
  · have hb2 : b < 2 ^ i :=
      lt_of_lt_of_le hb (Nat.pow_le_pow_right (by omega) hik)
    have hbz : b.testBit i = false := Nat.testBit_eq_false_of_lt hb2
    have e3 : (2 ^ k * a + b) / 2 ^ i = 2 ^ k * a / 2 ^ i := by
      have ei : (2 : Nat) ^ i = 2 ^ k * 2 ^ (i - k) := by
        rw [← Nat.pow_add]
        congr 1
        omega
      rw [ei, ← Nat.div_div_eq_div_mul, ← Nat.div_div_eq_div_mul,
        Nat.mul_add_div (Nat.pos_pow_of_pos k (by omega)),
        Nat.div_eq_of_lt hb, Nat.add_zero,
        Nat.mul_div_cancel_left _ (Nat.pos_pow_of_pos k (by omega))]
    rw [hbz, Bool.or_false, Nat.testBit_to_div_mod, Nat.testBit_to_div_mod,
      e3]

theorem varintEncodeF_length_pos (fuel n : Nat) :
    1 ≤ (varintEncodeF fuel n).length := by
  cases fuel with
  | zero => simp [varintEncodeF]
  | succ fuel =>
    by_cases h : n < 128 <;> simp [varintEncodeF, h]

theorem varintEncodeF_ne_nil (fuel n : Nat) : varintEncodeF fuel n ≠ [] := by
  have := varintEncodeF_length_pos fuel n
  intro h
  rw [h] at this
  simp at this

theorem varintDecode_encodeF :
    ∀ (fuel n : Nat) (suffix : Bytes), n ≤ fuel →
    varintDecode (varintEncodeF fuel n ++ suffix) =
      some (n, (varintEncodeF fuel n).length) := by
  intro fuel
  induction fuel with
  | zero =>
    intro n suffix hn
    have hn0 : n = 0 := by omega
    subst hn0
    simp [varintEncodeF, varintDecode]
  | succ fuel ih =>
    intro n suffix hn
    by_cases h : n < 128
    · simp [varintEncodeF, h, varintDecode]
    · have hrec := ih (n / 128) suffix (by omega)
      have hhead : ¬ (n % 128 + 128 < 128) := by omega
      simp only [varintEncodeF, if_neg h, List.cons_append, varintDecode,
        if_neg hhead, hrec]
      have hv : n % 128 + 128 * (n / 128) = n := by omega
      have hm : (n % 128 + 128) % 128 = n % 128 := by omega
      simp [hm, hv]

theorem varintDecode_encode (n : Nat) (suffix : Bytes) :
    varintDecode (varintEncode n ++ suffix) =
      some (n, (varintEncode n).length) :=
  varintDecode_encodeF n n suffix (Nat.le_refl n)

theorem varintEncode_length_pos (n : Nat) : 1 ≤ (varintEncode n).length :=
  varintEncodeF_length_pos n n

theorem pbParseFieldsFuel_nil (fuel : Nat) :
    pbParseFieldsFuel fuel [] = some [] := by
  cases fuel <;> simp [pbParseFieldsFuel]

theorem pbEncodeField_ne_nil (f : PbField) : pbEncodeField f ≠ [] := by
  cases f with
  | varint fno v =>
    simp only [pbEncodeField]
    intro h
    rcases List.append_eq_nil.mp h with ⟨h1, _⟩
    exact varintEncodeF_ne_nil _ _ h1
  | lenDelim fno v =>
    simp only [pbEncodeField]
    intro h
    rcases List.append_eq_nil.mp h with ⟨h1, _⟩
    rcases List.append_eq_nil.mp h1 with ⟨h2, _⟩
    exact varintEncodeF_ne_nil _ _ h2

theorem pbParse_encode :
    ∀ (fields : List PbField) (fuel : Nat),
    ((fields.map pbEncodeField).flatten).length ≤ fuel →
    pbParseFieldsFuel fuel ((fields.map pbEncodeField).flatten) =
      some fields := by
  intro fields
  induction fields with
  | nil =>
    intro fuel _
    simp [pbParseFieldsFuel_nil]
  | cons f fs ih =>
    intro fuel hfuel
    rw [List.map_cons, List.flatten_cons] at hfuel ⊢
    have hne : pbEncodeField f ++ (fs.map pbEncodeField).flatten ≠ [] := by
      intro h
      rcases List.append_eq_nil.mp h with ⟨h1, _⟩
      exact pbEncodeField_ne_nil f h1
    rcases fuel with _ | fuel
    · exfalso
      have : pbEncodeField f ++ (fs.map pbEncodeField).flatten = [] :=
        List.length_eq_zero.mp (by omega)
      exact hne this
    rw [pbParseFieldsFuel, if_neg hne]
    cases f with
    | varint fno v =>
      have easc : pbEncodeField (PbField.varint fno v) ++
          (fs.map pbEncodeField).flatten =
          varintEncode (fno * 8) ++ (varintEncode v ++
            (fs.map pbEncodeField).flatten) := by
        simp [pbEncodeField, List.append_assoc]
      rw [easc] at hne hfuel ⊢
      rw [varintDecode_encode]
      simp only [List.drop_left]
      have htag0 : fno * 8 % 8 = 0 := by omega
      have htagd : fno * 8 / 8 = fno := by omega
      rw [htag0, htagd, varintDecode_encode]
      simp only [List.drop_left]
      have hfs : ((fs.map pbEncodeField).flatten).length ≤ fuel := by
        have l1 := varintEncode_length_pos (fno * 8)
        have l2 := varintEncode_length_pos v
        simp only [List.length_append] at hfuel
        omega
      rw [ih fuel hfs]
    | lenDelim fno v =>
      have easc : pbEncodeField (PbField.lenDelim fno v) ++
          (fs.map pbEncodeField).flatten =
          varintEncode (fno * 8 + 2) ++ (varintEncode v.length ++
            (v ++ (fs.map pbEncodeField).flatten)) := by
        simp [pbEncodeField, List.append_assoc]
      rw [easc] at hne hfuel ⊢
      rw [varintDecode_encode]
      simp only [List.drop_left]
      have htag2 : (fno * 8 + 2) % 8 = 2 := by omega
      have htagd : (fno * 8 + 2) / 8 = fno := by omega
      rw [htag2, htagd, varintDecode_encode]
      simp only [List.drop_left]
      have hle : v.length ≤ (v ++ (fs.map pbEncodeField).flatten).length := by
        simp [List.length_append]
      rw [if_pos hle, List.take_left]
      have hfs : ((fs.map pbEncodeField).flatten).length ≤ fuel := by
        have l1 := varintEncode_length_pos (fno * 8 + 2)
        have l2 := varintEncode_length_pos v.length
        simp only [List.length_append] at hfuel
        omega
      rw [ih fuel hfs]

theorem openFields_foldl (m : OpenMessage) :
    (msgFields (.openM m)).foldl applyOpenField ⟨[], none⟩ = m := by
  obtain ⟨dk, cap⟩ := m
  by_cases hdk : dk = [] <;> cases cap <;>
    simp [msgFields, hdk, applyOpenField]

theorem closeFields_foldl (m : CloseMessage) :
    (msgFields (.closeM m)).foldl applyCloseField ⟨[]⟩ = m := by
  obtain ⟨dk⟩ := m
  by_cases hdk : dk = [] <;> simp [msgFields, hdk, applyCloseField]

theorem requestFields_foldl (m : RequestMessage) :
    (msgFields (.requestM m)).foldl applyRequestField ⟨0⟩ = m := by
  obtain ⟨idx⟩ := m
  by_cases hidx : idx = 0 <;> simp [msgFields, hidx, applyRequestField]

theorem dataFields_foldl (m : DataMessage) :
    (msgFields (.dataM m)).foldl applyDataField ⟨0, [], [], []⟩ = m := by
  obtain ⟨idx, dat, ds, ts⟩ := m
  by_cases h1 : idx = 0 <;> by_cases h2 : dat = [] <;>
    by_cases h3 : ds = [] <;> by_cases h4 : ts = [] <;>
    simp [msgFields, h1, h2, h3, h4, applyDataField]

theorem messageBody_roundtrip (m : Message) :
    messageDecodeBody (messageTyp m) (messageEncodeBody m) = some m := by
  have hp : pbParseFields (messageEncodeBody m) = some (msgFields m) :=
    pbParse_encode (msgFields m) _ (Nat.le_refl _)
  cases m with
  | openM mm =>
    simp [messageDecodeBody, messageTyp, hp, openFields_foldl]
  | closeM mm =>
    simp [messageDecodeBody, messageTyp, hp, closeFields_foldl]
  | requestM mm =>
    simp [messageDecodeBody, messageTyp, hp, requestFields_foldl]
  | dataM mm =>
    simp [messageDecodeBody, messageTyp, hp, dataFields_foldl]

theorem messageTyp_lt (m : Message) : messageTyp m < 16 := by
  cases m <;> simp [messageTyp]

/-- C10 counterexample: the header packing `channel << 4` silently
discards the top four bits of a `u64` channel id, so for
`channel = 2^60` the encoded message decodes to channel `0`: decode is
not a left inverse of encode over all channel ids. -/
theorem claim_C10_counterexample :
    channelMessageEncode ⟨2 ^ 60, .requestM ⟨0⟩⟩ = .ok [2] ∧
    channelMessageDecode [2] =
      some ⟨0, .requestM ⟨0⟩⟩ ∧ (0 : Nat) ≠ 2 ^ 60 := by
  refine ⟨rfl, rfl, by decide⟩

/-- C10 (amended): for every channel id BELOW `2^60` and every channel
message, a successful encode (varint-packed header plus Protobuf body)
decodes back to an equal channel id and an equal message. -/
theorem claim_C10_roundtrip (cm : ChannelMessage)
    (hch : cm.channel < 2 ^ 60) (bytes : Bytes)
    (henc : channelMessageEncode cm = .ok bytes) :
    channelMessageDecode bytes = some cm := by
  obtain ⟨ch, msg⟩ := cm
  simp only at hch
  unfold channelMessageEncode at henc
  by_cases hlen : (varintEncode (channelMessageHeader ⟨ch, msg⟩)).length +
      (messageEncodeBody msg).length ≤ 4194304
  · rw [if_pos hlen] at henc
    have hbytes : bytes = varintEncode (channelMessageHeader ⟨ch, msg⟩) ++
        messageEncodeBody msg := by
      cases henc
      rfl
    subst hbytes
    have hne : varintEncode (channelMessageHeader ⟨ch, msg⟩) ++
        messageEncodeBody msg ≠ [] := by
      intro h
      rcases List.append_eq_nil.mp h with ⟨h1, _⟩
      exact varintEncodeF_ne_nil _ _ h1
    unfold channelMessageDecode
    rw [if_neg hne, varintDecode_encode]
    simp only [List.drop_left]
    have hheader : channelMessageHeader ⟨ch, msg⟩ =
        2 ^ 4 * ch + messageTyp msg := by
      unfold channelMessageHeader
      simp only
      have hsh : ch <<< 4 = 2 ^ 4 * ch := by
        rw [Nat.shiftLeft_eq]
        ring
      have hlt : 2 ^ 4 * ch < 18446744073709551616 := by
        have h60 : (2 : Nat) ^ 60 = 1152921504606846976 := by norm_num
        rw [h60] at hch
        omega
      rw [hsh, Nat.mod_eq_of_lt hlt]
      exact lor_two_pow_mul_add (messageTyp_lt msg)
    have htyp : channelMessageHeader ⟨ch, msg⟩ % 16 = messageTyp msg := by
      rw [hheader]
      have := messageTyp_lt msg
      omega
    have hch4 : channelMessageHeader ⟨ch, msg⟩ >>> 4 = ch := by
      rw [Nat.shiftRight_eq_div_pow, hheader]
      have := messageTyp_lt msg
      omega
    rw [htyp, messageBody_roundtrip]
    simp only [hch4]
  · rw [if_neg hlen] at henc
    cases henc

theorem claim_C10_witness :
    (ChannelMessage.mk 1 (.dataM ⟨3, [1, 2], [4], [5]⟩)).channel < 2 ^ 60 ∧
    channelMessageDecode
      (varintEncode (channelMessageHeader
        ⟨1, .dataM ⟨3, [1, 2], [4], [5]⟩⟩) ++
       messageEncodeBody (.dataM ⟨3, [1, 2], [4], [5]⟩)) =
      some ⟨1, .dataM ⟨3, [1, 2], [4], [5]⟩⟩ :=
  ⟨by decide,
   claim_C10_roundtrip ⟨1, .dataM ⟨3, [1, 2], [4], [5]⟩⟩ (by decide) _ rfl⟩

/-! ## Claim C1: append sequences read back byte-for-byte -/

theorem contentOffset_append_lt {cs : List Bytes} {d : Bytes} {i : Nat}
    (h : i ≤ cs.length) :
    contentOffset (cs ++ [d]) i = contentOffset cs i := by
  unfold contentOffset
  rw [List.take_append_of_le_length h]

theorem contentOffset_append_self (cs : List Bytes) (d : Bytes) :
    contentOffset (cs ++ [d]) cs.length = contentTotal cs := by
  unfold contentOffset contentTotal
  rw [List.take_append_of_le_length (Nat.le_refl _), List.take_length]

theorem contentOffset_succ {cs : List Bytes} {i : Nat} (h : i < cs.length) :
    contentOffset cs (i + 1) = contentOffset cs i + (cs.getD i []).length := by
  unfold contentOffset
  rw [List.take_succ]
  have hsome : cs[i]? = some (cs.getD i []) := by
    rw [List.getD_eq_getElem?_getD, List.getElem?_eq_getElem h]
    simp
  rw [hsome]
  simp

theorem contentOffset_le_total {cs : List Bytes} {i : Nat}
    (_h : i ≤ cs.length) : contentOffset cs i ≤ contentTotal cs := by
  unfold contentOffset contentTotal
  conv_rhs => rw [← List.take_append_drop i cs]
  rw [List.map_append, List.sum_append]
  omega

theorem contentOffset_add_le_total {cs : List Bytes} {i : Nat}
    (h : i < cs.length) :
    contentOffset cs i + (cs.getD i []).length ≤ contentTotal cs := by
  have h1 := contentOffset_succ h
  have h2 := contentOffset_le_total (show i + 1 ≤ cs.length from h)
  omega

theorem storeDataWrite_ok {store : Store} {block : Block} {data : Bytes}
    {st : Store} (h : storeDataWrite store block data = .ok st) :
    block.offset + block.length ≤ U64MAX ∧ data.length = block.length ∧
    st = writeBytes store block.offset data := by
  unfold storeDataWrite at h
  split at h
  · split at h
    · cases h
      exact ⟨by assumption, by assumption, rfl⟩
    · cases h
  · cases h

theorem storeBlocksWrite_ok {store : Store} {index : Nat} {block : Block}
    {st : Store} (h : storeBlocksWrite store index block = .ok st) :
    st = writeBytes store (index * BLOCK_LENGTH) (blockToBytes block) := by
  simp only [storeBlocksWrite] at h
  split at h
  · cases h
    rfl
  · cases h

theorem coreAppendVerify_ok_fields {S : SigScheme} {c : Core} {data : Bytes}
    {signature : Option BlockSignature} {c1 : Core} {sig : BlockSignature}
    (h : coreAppendVerify S c data signature = .ok (c1, sig)) :
    c1.data = c.data ∧ c1.blocks = c.blocks ∧ c1.state = c.state ∧
    c1.length = c.length ∧ c1.byteLength = c.byteLength ∧
    c1.publicKey = c.publicKey ∧ c1.secretKey = c.secretKey := by
  unfold coreAppendVerify at h
  cases signature with
  | some s =>
    simp only at h
    split at h
    · split at h
      · simp only [Except.ok.injEq, Prod.mk.injEq] at h
        rw [← h.1]
        exact ⟨rfl, rfl, rfl, rfl, rfl, rfl, rfl⟩
      · cases h
    · cases h
  | none =>
    simp only at h
    split at h
    · cases h
    · simp only [Except.ok.injEq, Prod.mk.injEq] at h
      rw [← h.1]
      exact ⟨rfl, rfl, rfl, rfl, rfl, rfl, rfl⟩

theorem coreAppend_ok_spec {S : SigScheme} {c : Core} {data : Bytes}
    {signature : Option BlockSignature} {c' : Core}
    (h : coreAppend S c data signature = (c', Except.ok ())) :
    ∃ sig : BlockSignature,
      data.length ≤ MAX_BLOCK_SIZE ∧
      c.byteLength + data.length ≤ U64MAX ∧
      c.length + 1 ≤ 4294967295 ∧
      c'.length = c.length + 1 ∧
      c'.byteLength = c.byteLength + data.length ∧
      c'.data = writeBytes c.data c.byteLength data ∧
      c'.blocks = writeBytes c.blocks (c.length * BLOCK_LENGTH)
        (blockToBytes ⟨c.byteLength, data.length, sig⟩) := by
  simp only [coreAppend] at h
  split at h
  case isTrue hsize =>
    split at h
    case h_1 e heq => exact absurd (congrArg Prod.snd h) (by simp)
    case h_2 p c1 sig heq =>
      obtain ⟨hf1, hf2, hf3, hf4, hf5, hf6, hf7⟩ :=
        coreAppendVerify_ok_fields heq
      refine ⟨sig, hsize, ?_⟩
      cases hd : storeDataWrite c1.data
          ⟨c1.byteLength, data.length, sig⟩ data with
      | error e => rw [hd] at h; simp at h
      | ok dst =>
      cases hb : storeBlocksWrite c1.blocks c.length
          ⟨c1.byteLength, data.length, sig⟩ with
      | error e => rw [hd, hb] at h; simp at h
      | ok bst =>
      rw [hd, hb] at h
      simp only at h
      obtain ⟨hspan, hdlen, hdst⟩ := storeDataWrite_ok hd
      have hbst := storeBlocksWrite_ok hb
      simp only at hspan
      cases hss : storeStateWrite c1.state c1.merkle with
      | error e => rw [hss] at h; simp at h
      | ok sstore =>
      rw [hss] at h
      simp only at h
      by_cases hbyte : c1.byteLength + data.length ≤ U64MAX
      case neg => rw [if_neg hbyte] at h; simp at h
      case pos =>
      rw [if_pos hbyte] at h
      by_cases hlen : c1.length + 1 ≤ 4294967295
      case neg => rw [if_neg hlen] at h; simp at h
      case pos =>
      rw [if_pos hlen] at h
      have hc' := congrArg Prod.fst h
      simp only at hc'
      refine ⟨?_, ?_, ?_, ?_, ?_, ?_⟩
      · rw [← hf5]; exact hbyte
      · rw [← hf4]; exact hlen
      · rw [← hc']
        show c1.length + 1 = c.length + 1
        rw [hf4]
      · rw [← hc']
        show c1.byteLength + data.length = c.byteLength + data.length
        rw [hf5]
      · rw [← hc']
        show dst = writeBytes c.data c.byteLength data
        rw [hdst]
        simp only [hf1, hf5]
      · rw [← hc']
        show bst = writeBytes c.blocks (c.length * BLOCK_LENGTH)
          (blockToBytes ⟨c.byteLength, data.length, sig⟩)
        rw [hbst]
        simp only [hf2, hf5]
  case isFalse => exact absurd (congrArg Prod.snd h) (by simp)

theorem coreTracks_nil (pk : Bytes) (sk : Option Bytes) :
    CoreTracks [] (freshCore pk sk) := by
  refine ⟨rfl, by simp [freshCore], rfl, by simp [freshCore, U64MAX], ?_⟩
  intro i hi
  simp at hi

theorem coreTracks_step {S : SigScheme} {cs : List Bytes} {c : Core}
    {d : Bytes} {s : Option BlockSignature} {c' : Core}
    (ht : CoreTracks cs c) (h : coreAppend S c d s = (c', .ok ())) :
    CoreTracks (cs ++ [d]) c' := by
  obtain ⟨sig, hd, hspan, hlen1, hclen, hcbyte, hcdata, hcblocks⟩ :=
    coreAppend_ok_spec h
  obtain ⟨ht1, ht2, ht3, ht4, ht5⟩ := ht
  refine ⟨?_, ?_, ?_, ?_, ?_⟩
  · rw [hclen, ht1]; simp
  · omega
  · rw [hcbyte, ht3]
    unfold contentTotal
    rw [List.map_append, List.sum_append]
    simp
  · rw [hcbyte]
    omega
  · intro i hi
    rw [List.length_append, List.length_singleton] at hi
    by_cases hlt : i < cs.length
    · obtain ⟨hsz, sigi, hbi, hdi⟩ := ht5 i hlt
      have hoff : contentOffset (cs ++ [d]) i = contentOffset cs i :=
        contentOffset_append_lt (Nat.le_of_lt hlt)
      have hget : (cs ++ [d]).getD i [] = cs.getD i [] :=
        List.getD_append cs [d] [] i hlt
      rw [hoff, hget]
      refine ⟨hsz, sigi, ?_, ?_⟩
      · rw [hcblocks]
        rw [readBytes_writeBytes_disjoint (by
          left
          have : i + 1 ≤ cs.length := hlt
          have h140 : BLOCK_LENGTH = 140 := rfl
          rw [h140]
          rw [ht1] at *
          omega)]
        exact hbi
      · rw [hcdata]
        rw [readBytes_writeBytes_disjoint (by
          left
          have := contentOffset_add_le_total hlt
          rw [ht3]
          omega)]
        exact hdi
    · have hieq : i = cs.length := by omega
      subst hieq
      have hoff : contentOffset (cs ++ [d]) cs.length = contentTotal cs :=
        contentOffset_append_self cs d
      have hget : (cs ++ [d]).getD cs.length [] = d := by simp
      rw [hoff, hget]
      refine ⟨hd, sig, ?_, ?_⟩
      · rw [hcblocks, ht1, ← ht3]
        have h140 : (BLOCK_LENGTH : Nat) =
            (blockToBytes ⟨c.byteLength, d.length, sig⟩).length :=
          (blockToBytes_length _).symm
        rw [h140, readBytes_writeBytes_self, ht3]
      · rw [hcdata, ← ht3, readBytes_writeBytes_self]

theorem appendSeq_tracks {S : SigScheme} :
    ∀ (inputs : List (Bytes × Option BlockSignature)) (c c' : Core)
    (cs : List Bytes), CoreTracks cs c → appendSeq S c inputs = some c' →
    CoreTracks (cs ++ inputs.map Prod.fst) c' := by
  intro inputs
  induction inputs with
  | nil =>
    intro c c' cs ht h
    simp only [appendSeq, Option.some.injEq] at h
    rw [← h]
    simpa using ht
  | cons p rest ih =>
    intro c c' cs ht h
    obtain ⟨d, s⟩ := p
    simp only [appendSeq] at h
    split at h
    case h_1 c1 u heq =>
      have hu : u = () := rfl
      rw [hu] at heq
      have ht1 := coreTracks_step ht heq
      have := ih c1 c' (cs ++ [d]) ht1 h
      simpa [List.append_assoc] using this
    case h_2 c1 e heq => cases h

theorem coreTracks_get {cs : List Bytes} {c : Core} (ht : CoreTracks cs c)
    {i : Nat} (hi : i < cs.length) :
    ∃ sig, coreGet c i = .ok (some (cs.getD i [], sig)) := by
  obtain ⟨ht1, ht2, ht3, ht4, ht5⟩ := ht
  obtain ⟨hsz, sigi, hbi, hdi⟩ := ht5 i hi
  refine ⟨sigi, ?_⟩
  unfold coreGet
  rw [if_pos (by unfold MAX_CORE_LENGTH; omega)]
  rw [if_neg (by omega)]
  have hread : storeBlocksRead c.blocks i =
      .ok ⟨contentOffset cs i, (cs.getD i []).length, sigi⟩ := by
    unfold storeBlocksRead
    rw [if_pos (by unfold BLOCK_LENGTH U64MAX; omega)]
    rw [hbi]
    apply blockFromBytes_blockToBytes
    · simp only
      have := contentOffset_le_total (Nat.le_of_lt hi)
      unfold U64MAX at ht4
      omega
    · simp only
      unfold MAX_BLOCK_SIZE at hsz
      omega
  have hdata : storeDataRead c.data
      ⟨contentOffset cs i, (cs.getD i []).length, sigi⟩ =
      .ok (cs.getD i []) := by
    unfold storeDataRead
    rw [if_pos (by
      simp only
      have := contentOffset_add_le_total hi
      omega)]
    simp only
    rw [hdi]
  rw [hread]
  simp only [hdata]

/-- C1: starting from a fresh `Core`, after any sequence of successful
`append` calls, `core.len()` equals the number of appends, and for
every `i` below that length, `core.get(i)` returns the `i`-th appended
content byte-for-byte (together with some block signature). -/
theorem claim_C1_append_get (S : SigScheme) (pk : Bytes)
    (sk : Option Bytes) (inputs : List (Bytes × Option BlockSignature))
    (c : Core) (h : appendSeq S (freshCore pk sk) inputs = some c) :
    c.length = inputs.length ∧
    ∀ i, i < inputs.length →
      ∃ sig, coreGet c i =
        .ok (some ((inputs.map Prod.fst).getD i [], sig)) := by
  have ht := appendSeq_tracks inputs (freshCore pk sk) c []
    (coreTracks_nil pk sk) h
  rw [List.nil_append] at ht
  constructor
  · rw [ht.1]
    simp
  · intro i hi
    exact coreTracks_get ht (by simpa using hi)

set_option maxHeartbeats 8000000 in
theorem claim_C1_witness :
    wC1core.length = wC1inputs.length ∧
    ∀ i, i < wC1inputs.length →
      ∃ sig, coreGet wC1core i =
        .ok (some ((wC1inputs.map Prod.fst).getD i [], sig)) :=
  claim_C1_append_get acceptAll [] (some []) wC1inputs wC1core rfl

/-! ## Claim C3: Merkle roots invariant -/

theorem popcountF_eq_of_lt :
    ∀ (f1 f2 n : Nat), n < f1 → n < f2 → popcountF f1 n = popcountF f2 n := by
  intro f1
  induction f1 with
  | zero => intro f2 n h1 _; omega
  | succ f1 ih =>
    intro f2 n h1 h2
    rcases f2 with _ | f2
    · omega
    by_cases hn : n = 0
    · subst hn; simp [popcountF]
    · simp only [popcountF, if_neg hn]
      have : popcountF f1 (n / 2) = popcountF f2 (n / 2) := by
        apply ih
        · omega
        · omega
      omega

theorem popcount_eq (n : Nat) :
    popcount n = if n = 0 then 0 else n % 2 + popcount (n / 2) := by
  show popcountF (n + 1) n = _
  by_cases hn : n = 0
  · subst hn; simp [popcountF]
  · simp only [popcountF, if_neg hn]
    have : popcountF n (n / 2) = popcountF (n / 2 + 1) (n / 2) := by
      apply popcountF_eq_of_lt
      · omega
      · omega
    rw [this]
    rfl

theorem popcount_even {m : Nat} (h : m % 2 = 0) :
    popcount m = popcount (m / 2) := by
  by_cases hm : m = 0
  · subst hm; rfl
  · rw [popcount_eq, if_neg hm, h]
    omega

theorem popcount_pow_add :
    ∀ (e m : Nat), 2 ^ (e + 1) ∣ m → popcount (2 ^ e + m) = 1 + popcount m := by
  intro e
  induction e with
  | zero =>
    intro m hm
    have hme : m % 2 = 0 := by
      obtain ⟨t, ht⟩ := hm
      omega
    rw [popcount_eq, if_neg (by omega)]
    have h1 : (2 ^ 0 + m) % 2 = 1 := by omega
    have h2 : (2 ^ 0 + m) / 2 = m / 2 := by omega
    rw [h1, h2, popcount_even hme]
  | succ e ih =>
    intro m hm
    obtain ⟨t, ht⟩ := hm
    have hm2 : m = 2 * (2 ^ (e + 1) * t) := by rw [ht]; ring
    have hme : m % 2 = 0 := by omega
    have hne : 2 ^ (e + 1) + m ≠ 0 := by positivity
    rw [popcount_eq, if_neg hne]
    have h1 : (2 ^ (e + 1) + m) % 2 = 0 := by
      have he : (2 : Nat) ^ (e + 1) = 2 * 2 ^ e := by ring
      omega
    have h2 : (2 ^ (e + 1) + m) / 2 = 2 ^ e + m / 2 := by
      have he : (2 : Nat) ^ (e + 1) = 2 * 2 ^ e := by ring
      omega
    have h3 : 2 ^ (e + 1) ∣ m / 2 := by
      refine ⟨t, ?_⟩
      omega
    rw [h1, h2, ih (m / 2) h3, popcount_even hme]
    omega

theorem pow2sum_nil : pow2sum [] = 0 := rfl

theorem pow2sum_cons (e : Nat) (es : List Nat) :
    pow2sum (e :: es) = 2 ^ e + pow2sum es := by
  unfold pow2sum
  simp

theorem pow2sum_dvd {c : Nat} :
    ∀ {es : List Nat}, (∀ e ∈ es, c ≤ e) → 2 ^ c ∣ pow2sum es := by
  intro es
  induction es with
  | nil => intro _; simp [pow2sum_nil]
  | cons e rest ih =>
    intro h
    rw [pow2sum_cons]
    refine Dvd.dvd.add ?_ (ih (fun x hx => h x (by simp [hx])))
    exact pow_dvd_pow 2 (h e (by simp))

theorem popcount_pow2sum :
    ∀ (es : List Nat), List.Chain' (· < ·) es →
    popcount (pow2sum es) = es.length := by
  intro es
  induction es with
  | nil => intro _; rfl
  | cons e rest ih =>
    intro hch
    have hpw : List.Pairwise (· < ·) (e :: rest) :=
      List.chain'_iff_pairwise.mp hch
    have hrest : ∀ x ∈ rest, e + 1 ≤ x := by
      intro x hx
      exact Nat.succ_le_of_lt ((List.pairwise_cons.mp hpw).1 x hx)
    rw [pow2sum_cons, popcount_pow_add e _ (pow2sum_dvd hrest),
      ih (List.chain'_iff_pairwise.mpr (List.pairwise_cons.mp hpw).2)]
    simp [Nat.add_comm]

theorem ftDepthF_eq_of_lt :
    ∀ (f1 f2 i : Nat), i < f1 → i < f2 → ftDepthF f1 i = ftDepthF f2 i := by
  intro f1
  induction f1 with
  | zero => intro f2 i h1 _; omega
  | succ f1 ih =>
    intro f2 i h1 h2
    rcases f2 with _ | f2
    · omega
    by_cases hi : i % 2 = 1
    · simp only [ftDepthF, if_pos hi]
      have : ftDepthF f1 (i / 2) = ftDepthF f2 (i / 2) := by
        apply ih
        · omega
        · omega
      omega
    · simp only [ftDepthF, if_neg hi]

theorem ftDepth_eq (i : Nat) :
    ftDepth i = if i % 2 = 1 then ftDepth (i / 2) + 1 else 0 := by
  show ftDepthF (i + 1) i = _
  by_cases hi : i % 2 = 1
  · simp only [ftDepthF, if_pos hi]
    have : ftDepthF i (i / 2) = ftDepthF (i / 2 + 1) (i / 2) := by
      apply ftDepthF_eq_of_lt
      · omega
      · omega
    rw [this]
    rfl
  · simp only [ftDepthF, if_neg hi]

theorem ftDepth_spec :
    ∀ (e s : Nat), 2 ^ e ∣ s → ftDepth (2 * s + 2 ^ e - 1) = e := by
  intro e
  induction e with
  | zero =>
    intro s _
    have h1 : 2 * s + 2 ^ 0 - 1 = 2 * s := by omega
    rw [h1, ftDepth_eq, if_neg (by omega)]
  | succ e ih =>
    intro s hdvd
    obtain ⟨t, ht⟩ := hdvd
    have hp : (2 : Nat) ^ (e + 1) = 2 * 2 ^ e := by ring
    have hpos : 1 ≤ 2 ^ e := Nat.one_le_two_pow
    have hac : 2 ^ (e + 1) * t = 2 * (2 ^ e * t) := by ring
    have hodd : (2 * s + 2 ^ (e + 1) - 1) % 2 = 1 := by omega
    rw [ftDepth_eq, if_pos hodd]
    have hdiv : (2 * s + 2 ^ (e + 1) - 1) / 2 = 2 * (2 ^ e * t) + 2 ^ e - 1 := by
      omega
    rw [hdiv, ih (2 ^ e * t) ⟨t, rfl⟩]

theorem ftIndex_eq (d o : Nat) : ftIndex d o = o * 2 ^ (d + 1) + (2 ^ d - 1) := by
  unfold ftIndex
  rw [Nat.shiftLeft_eq, Nat.shiftLeft_eq]
  have h1 : (1 : Nat) * 2 ^ d = 2 ^ d := by ring
  rw [h1, Nat.mul_comm o]
  rw [lor_two_pow_mul_add (by
    have := @Nat.one_le_two_pow d
    have h2 : (2 : Nat) ^ d < 2 ^ (d + 1) := by
      have : (2 : Nat) ^ (d + 1) = 2 * 2 ^ d := by ring
      omega
    omega)]

theorem ftDepth_ftIndex (d o : Nat) : ftDepth (ftIndex d o) = d := by
  rw [ftIndex_eq]
  have h1 : o * 2 ^ (d + 1) + (2 ^ d - 1) = 2 * (o * 2 ^ d) + 2 ^ d - 1 := by
    have hac : o * 2 ^ (d + 1) = 2 * (o * 2 ^ d) := by ring
    have := @Nat.one_le_two_pow d
    omega
  rw [h1]
  exact ftDepth_spec d (o * 2 ^ d) ⟨o, Nat.mul_comm _ _⟩

theorem ftOffset_spec (e s : Nat) (h : 2 ^ e ∣ s) :
    ftOffset (2 * s + 2 ^ e - 1) = s / 2 ^ e := by
  obtain ⟨t, ht⟩ := h
  rcases e with _ | e
  · have h0 : 2 * s + 2 ^ 0 - 1 = 2 * s := by omega
    rw [h0]
    unfold ftOffset
    rw [if_pos (by omega)]
    have h1 : (2 : Nat) ^ 0 = 1 := rfl
    omega
  · have hp : (2 : Nat) ^ (e + 1) = 2 * 2 ^ e := by ring
    have hb := @Nat.one_le_two_pow e
    have hodd : (2 * s + 2 ^ (e + 1) - 1) % 2 = 1 := by omega
    unfold ftOffset
    rw [if_neg (by omega), ftDepth_spec (e + 1) s ⟨t, ht⟩,
      Nat.shiftRight_eq_div_pow, ht]
    have ha : (2 : Nat) ^ (e + 1 + 1) = 2 * 2 ^ (e + 1) := by ring
    have hb1 := @Nat.one_le_two_pow (e + 1)
    have h1 : 2 * (2 ^ (e + 1) * t) + 2 ^ (e + 1) - 1
        = 2 ^ (e + 1 + 1) * t + (2 ^ (e + 1) - 1) := by
      have hl : 2 ^ (e + 1 + 1) * t = 2 * (2 ^ (e + 1) * t) := by ring
      omega
    rw [h1, Nat.mul_add_div (by omega), Nat.div_eq_of_lt (by omega),
      Nat.mul_div_cancel_left _ (by omega)]
    omega

theorem ftOffset_ftIndex (d o : Nat) : ftOffset (ftIndex d o) = o := by
  rw [ftIndex_eq]
  have hpq : o * 2 ^ (d + 1) + (2 ^ d - 1) = 2 * (o * 2 ^ d) + 2 ^ d - 1 := by
    have hac : o * 2 ^ (d + 1) = 2 * (o * 2 ^ d) := by ring
    have := @Nat.one_le_two_pow d
    omega
  rw [hpq, ftOffset_spec d (o * 2 ^ d) ⟨o, Nat.mul_comm o (2 ^ d)⟩,
    Nat.mul_comm o (2 ^ d),
    Nat.mul_div_cancel_left _ (show 0 < 2 ^ d from @Nat.one_le_two_pow d)]

theorem ftParent_spec (e s : Nat) (h : 2 ^ e ∣ s) :
    ftParent (2 * s + 2 ^ e - 1) = ftIndex (e + 1) (s / 2 ^ (e + 1)) := by
  unfold ftParent
  rw [ftDepth_spec e s h, ftOffset_spec e s h, Nat.shiftRight_eq_div_pow]
  congr 1
  rw [pow_one, Nat.div_div_eq_div_mul, pow_succ]

theorem ftParent_ne_of_depth_ne {i j : Nat} (h : ftDepth i ≠ ftDepth j) :
    ftParent i ≠ ftParent j := by
  unfold ftParent
  intro hc
  have h1 := congrArg ftDepth hc
  rw [ftDepth_ftIndex, ftDepth_ftIndex] at h1
  omega

theorem ftLeftSpan_spec (e s : Nat) (h : 2 ^ e ∣ s) :
    ftLeftSpan (2 * s + 2 ^ e - 1) = 2 * s := by
  unfold ftLeftSpan
  rw [ftDepth_spec e s h, ftOffset_spec e s h]
  rcases e with _ | e
  · rw [if_pos rfl]
    have h0 : (2 : Nat) ^ 0 = 1 := rfl
    omega
  · rw [if_neg (by omega)]
    obtain ⟨t, ht⟩ := h
    subst ht
    rw [Nat.mul_div_cancel_left _ (show 0 < 2 ^ (e + 1) from
      @Nat.one_le_two_pow (e + 1)), Nat.shiftLeft_eq]
    ring

theorem ftRightSpan_spec (e s : Nat) (h : 2 ^ e ∣ s) :
    ftRightSpan (2 * s + 2 ^ e - 1) = 2 * s + 2 ^ (e + 1) - 2 := by
  unfold ftRightSpan
  rw [ftDepth_spec e s h, ftOffset_spec e s h]
  rcases e with _ | e
  · rw [if_pos rfl]
    have h0 : (2 : Nat) ^ 0 = 1 := rfl
    have h1 : (2 : Nat) ^ (0 + 1) = 2 := rfl
    omega
  · rw [if_neg (by omega)]
    obtain ⟨t, ht⟩ := h
    subst ht
    rw [Nat.mul_div_cancel_left _ (show 0 < 2 ^ (e + 1) from
      @Nat.one_le_two_pow (e + 1)), Nat.shiftLeft_eq]
    have hl1 : (2 : Nat) ^ (e + 1 + 1) = 2 * 2 ^ (e + 1) := by ring
    have hl2 : (t + 1) * (2 * 2 ^ (e + 1))
        = 2 * (2 ^ (e + 1) * t) + 2 * 2 ^ (e + 1) := by ring
    have hb := @Nat.one_le_two_pow (e + 1)
    omega

theorem revSpec_length : ∀ (es : List Nat) (n : Nat),
    (revSpec es n).length = es.length := by
  intro es
  induction es with
  | nil => intro n; rfl
  | cons e rest ih =>
    intro n
    simp only [revSpec, List.length_cons, ih]

theorem mtsCombineGo_spec {Hsh : Type} (parent : MNode Hsh → MNode Hsh → Hsh) :
    ∀ (es : List Nat) (c m : Nat) (top : MNode Hsh) (rev : List (MNode Hsh)),
      List.Chain' (· < ·) es →
      (∀ x ∈ es, c ≤ x) →
      pow2sum es + 2 ^ c = m →
      top.index = 2 * (m - 2 ^ c) + 2 ^ c - 1 →
      rev.map MNode.index = revSpec es (m - 2 ^ c) →
      (mtsCombineGo parent top rev).map MNode.index = revSpec (carry c es) m ∧
      List.Chain' (· < ·) (carry c es) ∧
      (∀ x ∈ carry c es, c ≤ x) ∧
      pow2sum (carry c es) = m := by
  intro es
  induction es with
  | nil =>
    intro c m top rev _ _ hsum htop hrev
    have hrevnil : rev = [] := by
      cases rev with
      | nil => rfl
      | cons a l => simp [revSpec] at hrev
    subst hrevnil
    have hsum0 : pow2sum ([] : List Nat) = 0 := pow2sum_nil
    refine ⟨?_, List.chain'_singleton c, ?_, ?_⟩
    · simp only [mtsCombineGo, List.map_cons, List.map_nil, carry, revSpec]
      rw [htop]
    · intro x hx
      simp only [carry, List.mem_cons, List.not_mem_nil, or_false] at hx
      omega
    · show pow2sum [c] = m
      rw [pow2sum_cons, pow2sum_nil]
      omega
  | cons e rest ih =>
    intro c m top rev hch hle hsum htop hrev
    have hce : c ≤ e := hle e (by simp)
    have hpw := List.chain'_iff_pairwise.mp hch
    have hrest_gt : ∀ x ∈ rest, e < x := (List.pairwise_cons.mp hpw).1
    have hch_rest : List.Chain' (· < ·) rest :=
      List.chain'_iff_pairwise.mpr (List.pairwise_cons.mp hpw).2
    have hPdvd : 2 ^ (e + 1) ∣ pow2sum rest :=
      pow2sum_dvd (fun x hx => Nat.succ_le_of_lt (hrest_gt x hx))
    have hsum' : 2 ^ e + pow2sum rest + 2 ^ c = m := by
      rw [pow2sum_cons] at hsum; omega
    rcases rev with _ | ⟨left, rev'⟩
    · simp [revSpec] at hrev
    simp only [revSpec, List.map_cons, List.cons.injEq] at hrev
    obtain ⟨hlefti, hrev'⟩ := hrev
    have hbe := @Nat.one_le_two_pow e
    have hbc := @Nat.one_le_two_pow c
    have hA : m - 2 ^ c - 2 ^ e = pow2sum rest := by omega
    rw [hA] at hlefti hrev'
    by_cases hec : e = c
    · subst hec
      have hdvdP_e : 2 ^ e ∣ pow2sum rest :=
        dvd_trans (pow_dvd_pow 2 (Nat.le_succ e)) hPdvd
      obtain ⟨u, hu⟩ := hPdvd
      have hbe1 := @Nat.one_le_two_pow (e + 1)
      have hpe1 : (2 : Nat) ^ (e + 1) = 2 * 2 ^ e := by ring
      have hB : m - 2 ^ e = pow2sum rest + 2 ^ e := by omega
      rw [hB] at htop
      have hdvdT : 2 ^ e ∣ pow2sum rest + 2 ^ e := dvd_add hdvdP_e dvd_rfl
      have hfl : ftParent left.index
          = ftIndex (e + 1) (pow2sum rest / 2 ^ (e + 1)) := by
        rw [hlefti]; exact ftParent_spec e (pow2sum rest) hdvdP_e
      have hft : ftParent top.index
          = ftIndex (e + 1) ((pow2sum rest + 2 ^ e) / 2 ^ (e + 1)) := by
        rw [htop]; exact ftParent_spec e (pow2sum rest + 2 ^ e) hdvdT
      have hdiv1 : pow2sum rest / 2 ^ (e + 1) = u := by
        rw [hu, Nat.mul_div_cancel_left _ (by omega)]
      have hdiv2 : (pow2sum rest + 2 ^ e) / 2 ^ (e + 1) = u := by
        rw [hu, Nat.mul_add_div (by omega), Nat.div_eq_of_lt (by omega)]
        omega
      have hcond : ftParent left.index = ftParent top.index := by
        rw [hfl, hft, hdiv1, hdiv2]
      have hstep : mtsCombineGo parent top (left :: rev')
          = mtsCombineGo parent
              ⟨ftParent left.index, parent left top,
                left.length + top.length⟩ rev' := by
        simp only [mtsCombineGo]
        rw [if_pos hcond]
      have hC : m - 2 ^ (e + 1) = pow2sum rest := by omega
      have hnewidx : (⟨ftParent left.index, parent left top,
          left.length + top.length⟩ : MNode Hsh).index
          = 2 * (m - 2 ^ (e + 1)) + 2 ^ (e + 1) - 1 := by
        show ftParent left.index = _
        rw [hfl, hdiv1, ftIndex_eq, hC, hu]
        have l1 : u * 2 ^ (e + 1 + 1) = 2 * (2 ^ (e + 1) * u) := by ring
        omega
      have hrev'' : rev'.map MNode.index = revSpec rest (m - 2 ^ (e + 1)) := by
        rw [hC]; exact hrev'
      obtain ⟨ih1, ih2, ih3, ih4⟩ := ih (e + 1) m
        ⟨ftParent left.index, parent left top, left.length + top.length⟩
        rev' hch_rest (fun x hx => hrest_gt x hx) (by omega) hnewidx hrev''
      have hcar : carry e (e :: rest) = carry (e + 1) rest := by
        simp [carry]
      refine ⟨?_, ?_, ?_, ?_⟩
      · rw [hstep, hcar]; exact ih1
      · rw [hcar]; exact ih2
      · rw [hcar]
        intro x hx
        exact Nat.le_trans (Nat.le_succ e) (ih3 x hx)
      · rw [hcar]; exact ih4
    · have hclt : c < e := by omega
      have hdvdP_e : 2 ^ e ∣ pow2sum rest :=
        dvd_trans (pow_dvd_pow 2 (Nat.le_succ e)) hPdvd
      have hdL : ftDepth left.index = e := by
        rw [hlefti]; exact ftDepth_spec e (pow2sum rest) hdvdP_e
      have hB : m - 2 ^ c = 2 ^ e + pow2sum rest := by omega
      have hdvdT : 2 ^ c ∣ 2 ^ e + pow2sum rest :=
        dvd_add (pow_dvd_pow 2 hce)
          (dvd_trans (pow_dvd_pow 2 (show c ≤ e + 1 by omega)) hPdvd)
      have hdT : ftDepth top.index = c := by
        rw [htop, hB]; exact ftDepth_spec c (2 ^ e + pow2sum rest) hdvdT
      have hcond : ftParent left.index ≠ ftParent top.index :=
        ftParent_ne_of_depth_ne (by rw [hdL, hdT]; omega)
      have hstep : mtsCombineGo parent top (left :: rev')
          = top :: left :: rev' := by
        simp only [mtsCombineGo]
        rw [if_neg hcond]
      have hcar : carry c (e :: rest) = c :: e :: rest := by
        simp only [carry]
        rw [if_neg hec]
      refine ⟨?_, ?_, ?_, ?_⟩
      · rw [hstep, hcar]
        simp only [List.map_cons, revSpec]
        rw [hA, htop, hlefti, ← hrev']
      · rw [hcar]
        exact List.chain'_cons.mpr ⟨hclt, hch⟩
      · rw [hcar]
        intro x hx
        simp only [List.mem_cons] at hx
        rcases hx with rfl | rfl | hx
        · exact Nat.le_refl _
        · exact hce
        · exact Nat.le_trans hce (Nat.le_of_lt (hrest_gt x hx))
      · rw [hcar, pow2sum_cons]
        omega

theorem mtsNext_inv {Hsh : Type} (parent : MNode Hsh → MNode Hsh → Hsh)
    (st : MerkleTreeStream Hsh) (hsh : Hsh) (len : Nat) (es : List Nat)
    (hch : List.Chain' (· < ·) es)
    (hsum : pow2sum es = st.blocks)
    (hrev : st.roots.reverse.map MNode.index = revSpec es st.blocks) :
    List.Chain' (· < ·) (carry 0 es) ∧
    pow2sum (carry 0 es) = (mtsNext parent st hsh len).blocks ∧
    (mtsNext parent st hsh len).roots.reverse.map MNode.index
      = revSpec (carry 0 es) ((mtsNext parent st hsh len).blocks) ∧
    (mtsNext parent st hsh len).blocks = st.blocks + 1 := by
  have h20 : (2 : Nat) ^ 0 = 1 := rfl
  obtain ⟨hc1, hc2, hc3, hc4⟩ := mtsCombineGo_spec parent es 0 (st.blocks + 1)
    ⟨2 * st.blocks, hsh, len⟩ st.roots.reverse hch
    (fun x _ => Nat.zero_le x)
    (by omega)
    (by show 2 * st.blocks = 2 * (st.blocks + 1 - 2 ^ 0) + 2 ^ 0 - 1
        omega)
    (by show st.roots.reverse.map MNode.index
          = revSpec es (st.blocks + 1 - 2 ^ 0)
        have h1 : st.blocks + 1 - 2 ^ 0 = st.blocks := by omega
        rw [h1]
        exact hrev)
  refine ⟨hc2, ?_, ?_, rfl⟩
  · exact hc4
  · show ((mtsCombineGo parent ⟨2 * st.blocks, hsh, len⟩
        st.roots.reverse).reverse).reverse.map MNode.index
      = revSpec (carry 0 es) (st.blocks + 1)
    rw [List.reverse_reverse]
    exact hc1

theorem mtsRun_fold_inv {Hsh : Type} (parent : MNode Hsh → MNode Hsh → Hsh) :
    ∀ (inputs : List (Hsh × Nat)) (st : MerkleTreeStream Hsh) (es : List Nat),
      List.Chain' (· < ·) es →
      pow2sum es = st.blocks →
      st.roots.reverse.map MNode.index = revSpec es st.blocks →
      ∃ es2,
        List.Chain' (· < ·) es2 ∧
        pow2sum es2
          = (inputs.foldl (fun s p => mtsNext parent s p.1 p.2) st).blocks ∧
        (inputs.foldl (fun s p => mtsNext parent s p.1 p.2)
            st).roots.reverse.map MNode.index
          = revSpec es2
              ((inputs.foldl (fun s p => mtsNext parent s p.1 p.2) st).blocks) ∧
        (inputs.foldl (fun s p => mtsNext parent s p.1 p.2) st).blocks
          = st.blocks + inputs.length := by
  intro inputs
  induction inputs with
  | nil =>
    intro st es hch hsum hrev
    exact ⟨es, hch, hsum, hrev, by simp⟩
  | cons p rest ih =>
    intro st es hch hsum hrev
    obtain ⟨h1, h2, h3, h4⟩ := mtsNext_inv parent st p.1 p.2 es hch hsum hrev
    obtain ⟨es2, g1, g2, g3, g4⟩ :=
      ih (mtsNext parent st p.1 p.2) (carry 0 es) h1 h2 h3
    refine ⟨es2, g1, ?_, ?_, ?_⟩
    · simp only [List.foldl_cons]
      exact g2
    · simp only [List.foldl_cons]
      exact g3
    · simp only [List.foldl_cons, List.length_cons]
      rw [g4, h4]
      omega

theorem mtsRun_inv {Hsh : Type} (parent : MNode Hsh → MNode Hsh → Hsh)
    (inputs : List (Hsh × Nat)) :
    ∃ es2,
      List.Chain' (· < ·) es2 ∧
      pow2sum es2 = (mtsRun parent inputs).blocks ∧
      (mtsRun parent inputs).roots.reverse.map MNode.index
        = revSpec es2 ((mtsRun parent inputs).blocks) ∧
      (mtsRun parent inputs).blocks = inputs.length := by
  obtain ⟨es2, h1, h2, h3, h4⟩ := mtsRun_fold_inv parent inputs
    (mtsNew ([] : List (MNode Hsh))) [] List.chain'_nil rfl rfl
  have h5 : (mtsNew ([] : List (MNode Hsh))).blocks = 0 := rfl
  exact ⟨es2, h1, h2, h3, h4.trans (by rw [h5]; omega)⟩

theorem revSpec_spans :
    ∀ (es : List Nat) (n : Nat),
      List.Chain' (· < ·) es → pow2sum es = n →
      List.Chain' (fun x y => ftRightSpan y + 2 = ftLeftSpan x) (revSpec es n) ∧
      (∀ x : Nat, (revSpec es n).head? = some x → ftRightSpan x = 2 * n - 2) ∧
      (∀ x : Nat, (revSpec es n).getLast? = some x → ftLeftSpan x = 0) ∧
      List.Chain' (· > ·) (revSpec es n) := by
  intro es
  induction es with
  | nil =>
    intro n _ _
    refine ⟨List.chain'_nil, ?_, ?_, List.chain'_nil⟩
    · intro x hx; simp [revSpec] at hx
    · intro x hx; simp [revSpec] at hx
  | cons a rest ih =>
    intro n hch hsum
    have hpw := List.chain'_iff_pairwise.mp hch
    have hgt : ∀ x ∈ rest, a < x := (List.pairwise_cons.mp hpw).1
    have hch_rest : List.Chain' (· < ·) rest :=
      List.chain'_iff_pairwise.mpr (List.pairwise_cons.mp hpw).2
    have hPdvd : 2 ^ (a + 1) ∣ pow2sum rest :=
      pow2sum_dvd (fun x hx => Nat.succ_le_of_lt (hgt x hx))
    have hdvdPa : 2 ^ a ∣ pow2sum rest :=
      dvd_trans (pow_dvd_pow 2 (Nat.le_succ a)) hPdvd
    have hsum' : 2 ^ a + pow2sum rest = n := by
      rw [pow2sum_cons] at hsum; omega
    have hba := @Nat.one_le_two_pow a
    have hpa1 : (2 : Nat) ^ (a + 1) = 2 * 2 ^ a := by ring
    have hd : n - 2 ^ a = pow2sum rest := by omega
    have hRx : ftRightSpan (2 * (n - 2 ^ a) + 2 ^ a - 1) = 2 * n - 2 := by
      rw [hd, ftRightSpan_spec a (pow2sum rest) hdvdPa]
      omega
    have hLx : ftLeftSpan (2 * (n - 2 ^ a) + 2 ^ a - 1) = 2 * pow2sum rest := by
      rw [hd]; exact ftLeftSpan_spec a (pow2sum rest) hdvdPa
    rcases rest with _ | ⟨b, rest'⟩
    · have hP0 : pow2sum ([] : List Nat) = 0 := pow2sum_nil
      refine ⟨?_, ?_, ?_, ?_⟩
      · exact List.chain'_singleton _
      · intro x hx
        simp only [revSpec, List.head?_cons, Option.some.injEq] at hx
        rw [← hx]
        exact hRx
      · intro x hx
        have hgl : (revSpec [a] n).getLast?
            = some (2 * (n - 2 ^ a) + 2 ^ a - 1) := rfl
        rw [hgl, Option.some.injEq] at hx
        rw [← hx, hLx, hP0]
      · exact List.chain'_singleton _
    · rw [hd] at hLx
      obtain ⟨ihchain, ihhead, ihlast, ihdec⟩ :=
        ih (pow2sum (b :: rest')) hch_rest rfl
      have hbb := @Nat.one_le_two_pow b
      have hP1 : 1 ≤ pow2sum (b :: rest') := by
        rw [pow2sum_cons]; omega
      have hy : (revSpec (b :: rest') (pow2sum (b :: rest'))).head?
          = some (2 * (pow2sum (b :: rest') - 2 ^ b) + 2 ^ b - 1) := rfl
      have hyR : ftRightSpan
          (2 * (pow2sum (b :: rest') - 2 ^ b) + 2 ^ b - 1)
          = 2 * pow2sum (b :: rest') - 2 := ihhead _ hy
      have hPb : 2 ^ b ≤ pow2sum (b :: rest') := by
        rw [pow2sum_cons]; omega
      refine ⟨?_, ?_, ?_, ?_⟩
      · show List.Chain' (fun x y => ftRightSpan y + 2 = ftLeftSpan x)
          ((2 * (n - 2 ^ a) + 2 ^ a - 1)
            :: revSpec (b :: rest') (n - 2 ^ a))
        rw [hd]
        refine List.chain'_cons'.mpr ⟨?_, ihchain⟩
        intro h hh
        rw [Option.mem_def, hy, Option.some.injEq] at hh
        rw [← hh, hyR, hLx]
        omega
      · intro x hx
        have hh : (revSpec (a :: b :: rest') n).head?
            = some (2 * (n - 2 ^ a) + 2 ^ a - 1) := rfl
        rw [hh, Option.some.injEq] at hx
        rw [← hx]
        exact hRx
      · intro x hx
        have hstep : (revSpec (a :: b :: rest') n).getLast?
            = (revSpec (b :: rest') (n - 2 ^ a)).getLast? := by
          show ((2 * (n - 2 ^ a) + 2 ^ a - 1)
              :: (2 * ((n - 2 ^ a) - 2 ^ b) + 2 ^ b - 1)
              :: revSpec rest' ((n - 2 ^ a) - 2 ^ b)).getLast?
            = (revSpec (b :: rest') (n - 2 ^ a)).getLast?
          rw [List.getLast?_cons_cons]
          rfl
        rw [hstep, hd] at hx
        exact ihlast x hx
      · show List.Chain' (· > ·)
          ((2 * (n - 2 ^ a) + 2 ^ a - 1)
            :: revSpec (b :: rest') (n - 2 ^ a))
        rw [hd]
        refine List.chain'_cons'.mpr ⟨?_, ihdec⟩
        intro h hh
        rw [Option.mem_def, hy, Option.some.injEq] at hh
        have hPs : pow2sum (b :: rest') = 2 ^ b + pow2sum rest' :=
          pow2sum_cons b rest'
        omega

/-- Claim C3: after `n` calls of `next(leaf_hash, len)` on a fresh
Merkle stream, the roots list has exactly `popcount n` nodes, in
strictly ascending flat-tree index order, with contiguous disjoint
leaf spans (right span of each root followed by the left span of the
next, the first root starting at leaf 0 and the last ending at leaf
`n - 1`), and `blocks()` returns `n`, equal to
`1 + right_span(last.index) / 2` when `n > 0`. -/
theorem claim_C3_merkle_roots {Hsh : Type}
    (parent : MNode Hsh → MNode Hsh → Hsh) (inputs : List (Hsh × Nat)) :
    (mtsRun parent inputs).blocks = inputs.length ∧
    (mtsRun parent inputs).roots.length = popcount inputs.length ∧
    List.Chain' (fun a b => a.index < b.index) (mtsRun parent inputs).roots ∧
    List.Chain' (fun a b => ftRightSpan a.index + 2 = ftLeftSpan b.index)
      (mtsRun parent inputs).roots ∧
    (0 < inputs.length → ∃ first lastR : MNode Hsh,
      (mtsRun parent inputs).roots.head? = some first ∧
      (mtsRun parent inputs).roots.getLast? = some lastR ∧
      ftLeftSpan first.index = 0 ∧
      ftRightSpan lastR.index = 2 * inputs.length - 2 ∧
      (mtsRun parent inputs).blocks = 1 + ftRightSpan lastR.index / 2) := by
  obtain ⟨es2, hch2, hsum2, hrev2, hb⟩ := mtsRun_inv parent inputs
  rw [hb] at hsum2 hrev2
  have hmapL : (mtsRun parent inputs).roots.map MNode.index
      = (revSpec es2 inputs.length).reverse := by
    rw [← hrev2, List.map_reverse, List.reverse_reverse]
  obtain ⟨hspan, hhead, hlast, hdec⟩ :=
    revSpec_spans es2 inputs.length hch2 hsum2
  refine ⟨hb, ?_, ?_, ?_, ?_⟩
  · have h1 := congrArg List.length hmapL
    rw [List.length_map, List.length_reverse, revSpec_length] at h1
    rw [h1, ← hsum2, popcount_pow2sum es2 hch2]
  · have hasc : List.Chain' (· < ·) ((revSpec es2 inputs.length).reverse) :=
      List.chain'_reverse.mpr hdec
    have h2 : List.Chain' (· < ·)
        ((mtsRun parent inputs).roots.map MNode.index) := by
      rw [hmapL]; exact hasc
    exact (List.chain'_map MNode.index).mp h2
  · have hcontig : List.Chain'
        (fun x y => ftRightSpan x + 2 = ftLeftSpan y)
        ((revSpec es2 inputs.length).reverse) :=
      List.chain'_reverse.mpr hspan
    have h3 : List.Chain' (fun x y => ftRightSpan x + 2 = ftLeftSpan y)
        ((mtsRun parent inputs).roots.map MNode.index) := by
      rw [hmapL]; exact hcontig
    exact (List.chain'_map MNode.index).mp h3
  · intro hn
    rcases hL : (mtsRun parent inputs).roots with _ | ⟨r0, rs⟩
    · exfalso
      cases hes : es2 with
      | nil =>
        rw [hes, pow2sum_nil] at hsum2
        omega
      | cons a tl =>
        rw [hL, hes] at hmapL
        have hlen := congrArg List.length hmapL
        simp only [List.map_nil, List.length_nil, List.length_reverse,
          revSpec_length, List.length_cons] at hlen
        omega
    rcases hLr : (mtsRun parent inputs).roots.reverse with _ | ⟨rl, rrs⟩
    · exfalso
      rw [hL] at hLr
      simp at hLr
    have h6 : ftRightSpan rl.index = 2 * inputs.length - 2 := by
      apply hhead
      rw [← hrev2, hLr]
      rfl
    rw [hL] at hLr
    refine ⟨r0, rl, ?_, ?_, ?_, h6, ?_⟩
    · rfl
    · rw [← List.head?_reverse, hLr]
      rfl
    · apply hlast
      have h5 : revSpec es2 inputs.length
          = ((mtsRun parent inputs).roots.map MNode.index).reverse := by
        rw [hmapL, List.reverse_reverse]
      rw [h5, List.getLast?_reverse, hL]
      rfl
    · rw [h6, hb]
      omega

set_option maxHeartbeats 2000000 in
/-- Witness for C3: three leaves pushed through a concrete stream; the
nonemptiness hypothesis is discharged at `n = 3`. -/
theorem claim_C3_witness :
    0 < ([((0 : Nat), 1), (0, 1), (0, 1)] : List (Nat × Nat)).length ∧
    ∃ first lastR : MNode Nat,
      (mtsRun (fun _ _ => 0)
        ([((0 : Nat), 1), (0, 1), (0, 1)] : List (Nat × Nat))).roots.head?
        = some first ∧
      (mtsRun (fun _ _ => 0)
        ([((0 : Nat), 1), (0, 1), (0, 1)] : List (Nat × Nat))).roots.getLast?
        = some lastR ∧
      ftLeftSpan first.index = 0 ∧
      ftRightSpan lastR.index
        = 2 * ([((0 : Nat), 1), (0, 1), (0, 1)] : List (Nat × Nat)).length - 2 ∧
      (mtsRun (fun _ _ => 0)
        ([((0 : Nat), 1), (0, 1), (0, 1)] : List (Nat × Nat))).blocks
        = 1 + ftRightSpan lastR.index / 2 :=
  ⟨by decide,
    (claim_C3_merkle_roots (fun _ _ => 0)
      ([((0 : Nat), 1), (0, 1), (0, 1)] : List (Nat × Nat))).2.2.2.2
      (by decide)⟩

end Libdata
